import Mathlib

set_option maxHeartbeats 1000000

namespace CtcDecode

/-- Scalar values of the model: `some q` stands for a finite floating-point
value whose exact value is the rational `q`, and `none` stands for NaN. -/
abbrev R : Type := Option ℚ

/-- Addition of scalars; NaN propagates. -/
def radd : R → R → R
  | some a, some b => some (a + b)
  | _, _ => none

/-- Multiplication of scalars; NaN propagates. -/
def rmul : R → R → R
  | some a, some b => some (a * b)
  | _, _ => none

/-- Strict greater-than test on scalars; any comparison involving NaN is false. -/
def rgt : R → R → Bool
  | some a, some b => decide (b < a)
  | _, _ => false

/-- Less-or-equal test on scalars; any comparison involving NaN is false. -/
def rle : R → R → Bool
  | some a, some b => decide (a ≤ b)
  | _, _ => false

/-- Error type of the decoders, translated from `SearchError` in `src/src/lib.rs`. -/
inductive SearchError
  | RanOutOfBeam
  | IncomparableValues
  | InvalidEnvelope
  deriving DecidableEq, Repr

/-- Display formatting of `SearchError`, translated from
`impl fmt::Display for SearchError` in `src/src/lib.rs`. -/
def SearchError.display : SearchError → String
  | .RanOutOfBeam => "Ran out of search space (beam_cut_threshold too high)"
  | .IncomparableValues => "Failed to compare values (NaNs in input?)"
  | .InvalidEnvelope => "Invalid envelope values"

/-- Modelled from the spec: a node of the SuffixTree (spec sections 3 and 4.B; the
repository file `src/tree.rs` is declared in `src/src/lib.rs` but absent from the
sources). `parent` is the id of the parent (the root is its own parent), `label`
the symbol index that extends the parent's prefix, `time` the timestep at which
the node was first introduced. -/
structure TreeNode where
  parent : Nat
  label : Nat
  time : Nat
  deriving DecidableEq, Repr

/-- Modelled from the spec: the arena-allocated suffix tree; node ids are arena
indices and the root has id 0. The per-node sparse `children` map of the spec is
replaced by a scan of the arena for a node with the given parent and label, which
is observationally equivalent because a child's label uniquely identifies it
among its siblings and ids are assigned in creation order. -/
structure SuffixTree where
  nodes : List TreeNode
  deriving DecidableEq, Repr

/-- The root sentinel node: its own parent, with unused label 0 and time 0. -/
def rootNode : TreeNode := ⟨0, 0, 0⟩

/-- Modelled from the spec: the tree created at decode start, holding only the root. -/
def SuffixTree.init : SuffixTree := ⟨[rootNode]⟩

/-- Modelled from the spec: `label_at(id)`. -/
def label_at (tr : SuffixTree) (i : Nat) : Nat := (tr.nodes.getD i rootNode).label

/-- Modelled from the spec: `parent_of(id)`. -/
def parent_of (tr : SuffixTree) (i : Nat) : Nat := (tr.nodes.getD i rootNode).parent

/-- Modelled from the spec: `time_at(id)`. -/
def time_at (tr : SuffixTree) (i : Nat) : Nat := (tr.nodes.getD i rootNode).time

/-- Modelled from the spec: `get_or_create_child(parent, label, time)`: returns the
id of the child of `p` with label `lab`, creating it if absent; a created child
records the supplied time, an existing child's time is not updated. -/
def get_or_create_child (tr : SuffixTree) (p lab t : Nat) : SuffixTree × Nat :=
  match tr.nodes.findIdx? (fun n => n.parent == p && n.label == lab) with
  | some i => (tr, i)
  | none => (⟨tr.nodes ++ [⟨p, lab, t⟩]⟩, tr.nodes.length)

/-- Modelled from the spec: auxiliary walk for `path(id)`: climb to the root
accumulating (label, time) pairs, dropping the root sentinel. The fuel argument
makes the walk total; with the arena's parent-before-child discipline the fuel
`i` used by `SuffixTree.path` is never exhausted. -/
def pathAux (tr : SuffixTree) : Nat → Nat → List (Nat × Nat)
  | 0, _ => []
  | fuel+1, i =>
    if i = 0 then []
    else pathAux tr fuel (parent_of tr i) ++ [(label_at tr i, time_at tr i)]

/-- Modelled from the spec: `path(id)`: the (label, time) pairs from the root
(exclusive) down to the node. -/
def SuffixTree.path (tr : SuffixTree) (i : Nat) : List (Nat × Nat) :=
  pathAux tr i i

/-- Modelled from the spec: a beam entry: node id, blank-ending probability and
non-blank-ending probability. -/
abbrev BeamEntry := Nat × R × R

/-- Total probability of a beam entry. -/
def total (e : BeamEntry) : R := radd e.2.1 e.2.2

/-- Blank-channel value recorded for node `n` in a destination list (0 if the
node has no slot yet). -/
def lookupPb : List BeamEntry → Nat → R
  | [], _ => some 0
  | e :: l, n => if e.1 = n then e.2.1 else lookupPb l n

/-- Non-blank-channel value recorded for node `n` in a destination list. -/
def lookupNb : List BeamEntry → Nat → R
  | [], _ => some 0
  | e :: l, n => if e.1 = n then e.2.2 else lookupNb l n

/-- Modelled from the spec: `p_b_next[n] += v` on the scratch destination list;
a destination slot is created at the end of the list on first touch. -/
def addPb : List BeamEntry → Nat → R → List BeamEntry
  | [], n, v => [(n, v, some 0)]
  | e :: l, n, v =>
    if e.1 = n then (e.1, radd e.2.1 v, e.2.2) :: l else e :: addPb l n v

/-- Modelled from the spec: `p_nb_next[n] += v` on the scratch destination list. -/
def addNb : List BeamEntry → Nat → R → List BeamEntry
  | [], n, v => [(n, some 0, v)]
  | e :: l, n, v =>
    if e.1 = n then (e.1, e.2.1, radd e.2.2 v) :: l else e :: addNb l n v

/-- Modelled from the spec: expansion of one beam entry `e` by one label `k`
against row `t` of the network output (spec section 4.C step 1; the repository
file `src/search.rs` is declared in `src/src/lib.rs` but absent): mass above the
threshold is routed into the same node's blank channel when `k = 0`, split
between the same node's non-blank channel (`p_nb` share) and the child's
non-blank channel (`p_b` share) when `k` repeats `label_at(n)`, and routed
entirely into the child's non-blank channel otherwise. In the repeating case
the child is touched only when the blank-ending mass is positive (zero mass
would create a node for a prefix that never became live, contradicting the
spec's time semantics and its separator-blank scenario). -/
def routeLabel (θ : R) (row : List R) (t : Nat) (e : BeamEntry)
    (acc : SuffixTree × List BeamEntry) (k : Nat) : SuffixTree × List BeamEntry :=
  let p := row.getD k (some 0)
  if rgt p θ then
    if k = 0 then
      (acc.1, addPb acc.2 e.1 (rmul (radd e.2.1 e.2.2) p))
    else if k = label_at acc.1 e.1 then
      let nx1 := addNb acc.2 e.1 (rmul e.2.2 p)
      if rgt e.2.1 (some 0) then
        let pr := get_or_create_child acc.1 e.1 k t
        (pr.1, addNb nx1 pr.2 (rmul e.2.1 p))
      else (acc.1, nx1)
    else
      let pr := get_or_create_child acc.1 e.1 k t
      (pr.1, addNb acc.2 pr.2 (rmul (radd e.2.1 e.2.2) p))
  else acc

/-- Modelled from the spec: expansion of one beam entry by every label of a row. -/
def expandEntry (θ : R) (row : List R) (t : Nat)
    (acc : SuffixTree × List BeamEntry) (e : BeamEntry) : SuffixTree × List BeamEntry :=
  (List.range row.length).foldl (routeLabel θ row t e) acc

/-- Modelled from the spec: the expansion step of one timestep: every beam entry
is expanded in order into a fresh destination list. -/
def expand (θ : R) (row : List R) (t : Nat) (tr : SuffixTree)
    (beam : List BeamEntry) : SuffixTree × List BeamEntry :=
  beam.foldl (expandEntry θ row t) (tr, [])

/-- First element of the list with maximal score (ties keep the earliest), and
the remaining elements in their original order. -/
def pickBestBy (f : α → R) : List α → Option (α × List α)
  | [] => none
  | e :: l =>
    match pickBestBy f l with
    | none => some (e, [])
    | some (m, r) => if rgt (f m) (f e) then some (m, e :: r) else some (e, l)

/-- Modelled from the spec: stable top-K selection by descending score, ties
broken by insertion order (first seen wins). -/
def topKBy (f : α → R) : Nat → List α → List α
  | 0, _ => []
  | n+1, l =>
    match pickBestBy f l with
    | none => []
    | some (m, r) => m :: topKBy f n r

/-- Best beam entry by total probability. -/
def pickBest (l : List BeamEntry) : Option (BeamEntry × List BeamEntry) :=
  pickBestBy total l

/-- Modelled from the spec: one timestep of the single-sequence search: expand,
fail with `RanOutOfBeam` when the expansion is empty, fail with
`IncomparableValues` when a pruning comparison would meet NaN, otherwise keep
the top `K` destinations. -/
def stepT (K : Nat) (θ : R) (t : Nat) (row : List R)
    (st : SuffixTree × List BeamEntry) :
    Except SearchError (SuffixTree × List BeamEntry) :=
  let ex := expand θ row t st.1 st.2
  if ex.2.isEmpty then .error .RanOutOfBeam
  else if ex.2.any (fun e => (total e).isNone) then .error .IncomparableValues
  else .ok (ex.1, topKBy total K ex.2)

/-- Modelled from the spec: the per-timestep loop of the single-sequence search. -/
def runRows (K : Nat) (θ : R) :
    SuffixTree × List BeamEntry → Nat → List (List R) →
    Except SearchError (SuffixTree × List BeamEntry)
  | st, _, [] => .ok st
  | st, t, row :: rest =>
    match stepT K θ t row st with
    | .error e => .error e
    | .ok st' => runRows K θ st' (t+1) rest

/-- Modelled from the spec: the initial state: a fresh tree and the beam
holding the root with blank probability 1, non-blank probability 0. -/
def initState : SuffixTree × List BeamEntry :=
  (SuffixTree.init, [(0, some 1, some 0)])

/-- Modelled from the spec: finalisation (spec section 4.C): take the beam entry
with the largest total, reconstruct its path, drop any label index 0, and return
the labels with their recorded timesteps. -/
def finalise (st : SuffixTree × List BeamEntry) : List Nat × List Nat :=
  match pickBest st.2 with
  | none => ([], [])
  | some (m, _) =>
    let kept := (st.1.path m.1).filter (fun q => decide (q.1 ≠ 0))
    (kept.map (fun q => q.1), kept.map (fun q => q.2))

/-- Modelled from the spec: the single-sequence CTC prefix beam search (spec
section 4.C; the repository file `src/search.rs` is missing), over a `T × (L+1)`
matrix given as a list of rows; returns label indices and their timesteps. -/
def beam_search (network : List (List R)) (beam_size : Nat)
    (beam_cut_threshold : R) : Except SearchError (List Nat × List Nat) :=
  match runRows beam_size beam_cut_threshold initState 0 network with
  | .error e => .error e
  | .ok st => .ok (finalise st)

/-- Modelled from the spec: argument-validation failures of the entry points
(spec sections 6 and 7; the binding shim that raises them as `PyValueError` is
absent from the sources). -/
inductive ArgError
  | AlphabetTooSmall
  | ShapeMismatch
  | BeamSizeZero
  | BadThreshold
  deriving DecidableEq, Repr

/-- Modelled from the spec: the entry checks of spec section 6:
`alphabet.len() ≥ 2` and equal to the inner axis of every network row,
`beam_size ≥ 1`, and `0 ≤ beam_cut_threshold < 1/alphabet.len()`; the checks
read the network only through its row lengths. -/
def validate_args (network : List (List R)) (alphabet : List String)
    (beam_size : Nat) (θ : R) : Option ArgError :=
  if alphabet.length < 2 then some .AlphabetTooSmall
  else if network.any (fun row => row.length ≠ alphabet.length) then some .ShapeMismatch
  else if beam_size = 0 then some .BeamSizeZero
  else if !(rle (some 0) θ && rgt (some (1 / (alphabet.length : ℚ))) θ) then
    some .BadThreshold
  else none

/-- Modelled from the spec: the section 6 entry point for the single-sequence
search: validate the arguments before any decode work, then decode, then spell
the winning label indices through the alphabet. -/
def beam_search_checked (network : List (List R)) (alphabet : List String)
    (beam_size : Nat) (θ : R) :
    Except (ArgError ⊕ SearchError) (String × List Nat) :=
  match validate_args network alphabet beam_size θ with
  | some e => .error (.inl e)
  | none =>
    match beam_search network beam_size θ with
    | .error e => .error (.inr e)
    | .ok pr => .ok (String.join (pr.1.map (fun i => alphabet.getD i "")), pr.2)

/-- Modelled from the spec: envelope validation (spec section 3; the repository
file `src/duplex.rs` is declared in `src/src/lib.rs` but absent): every row
satisfies `lo ≤ hi ≤ T₂`, `lo` and `hi` are non-decreasing across rows, the
first row's `lo` is 0 and the last row's `hi` is `T₂`. An empty envelope
(arising only when `T₁ = 0`) is accepted. -/
def check_envelope (env : List (Nat × Nat)) (T2 : Nat) : Bool :=
  env.all (fun r => r.1 ≤ r.2 && r.2 ≤ T2) &&
  (env.zip (env.drop 1)).all (fun q => q.1.1 ≤ q.2.1 && q.1.2 ≤ q.2.2) &&
  (match env.head? with | some r => r.1 == 0 | none => true) &&
  (match env.getLast? with | some r => r.2 == T2 | none => true)

/-- Modelled from the spec: the default envelope substituted when none is
supplied: `[0, T₂)` on every row of the first network. -/
def default_envelope (T1 T2 : Nat) : List (Nat × Nat) :=
  List.replicate T1 (0, T2)

/-- Modelled from the spec: a duplex beam entry: prefix node, blank/non-blank
probabilities for each network, and the position marker into the second
network's rows. -/
structure DuplexEntry where
  node : Nat
  pb1 : R
  pnb1 : R
  pb2 : R
  pnb2 : R
  t2 : Nat
  deriving DecidableEq, Repr

/-- Modelled from the spec: the joint score of a duplex entry: the product of
the two path probabilities at the current alignment. -/
def duplexScore (e : DuplexEntry) : R :=
  rmul (radd e.pb1 e.pnb1) (radd e.pb2 e.pnb2)

/-- Modelled from the spec: joint expansion of one duplex entry by one label
(spec section 4.D): the single-sequence rules are applied to `net₁[t₁]`, and for
a non-blank extension the same rule is re-run against the second network at the
first admissible position of the envelope window, the two probability streams
combining multiplicatively in the score. The spec leaves the within-window
advancement underdetermined; it is modelled as consuming the first admissible
row of the window. -/
def routeLabelD (θ : R) (row1 : List R) (net2 : List (List R)) (lo hi : Nat)
    (e : DuplexEntry) (acc : SuffixTree × List DuplexEntry) (k : Nat) (t : Nat) :
    SuffixTree × List DuplexEntry :=
  let p1 := row1.getD k (some 0)
  if rgt p1 θ then
    if k = 0 then
      (acc.1, acc.2 ++ [{ e with pb1 := rmul (radd e.pb1 e.pnb1) p1, pnb1 := some 0 }])
    else
      let u := max e.t2 lo
      if u < hi then
        let p2 := (net2.getD u []).getD k (some 0)
        if rgt p2 θ then
          if k = label_at acc.1 e.node then
            let pr := get_or_create_child acc.1 e.node k t
            (pr.1, acc.2 ++
              [{ e with pb1 := some 0, pnb1 := rmul e.pnb1 p1,
                        pb2 := some 0, pnb2 := rmul e.pnb2 p2, t2 := u + 1 },
               { node := pr.2, pb1 := some 0, pnb1 := rmul e.pb1 p1,
                 pb2 := some 0, pnb2 := rmul e.pb2 p2, t2 := u + 1 }])
          else
            let pr := get_or_create_child acc.1 e.node k t
            (pr.1, acc.2 ++
              [{ node := pr.2, pb1 := some 0, pnb1 := rmul (radd e.pb1 e.pnb1) p1,
                 pb2 := some 0, pnb2 := rmul (radd e.pb2 e.pnb2) p2, t2 := u + 1 }])
        else acc
      else acc
  else acc

/-- Modelled from the spec: joint expansion of one duplex entry by every label. -/
def expandEntryD (θ : R) (row1 : List R) (net2 : List (List R)) (lo hi : Nat)
    (t : Nat) (acc : SuffixTree × List DuplexEntry) (e : DuplexEntry) :
    SuffixTree × List DuplexEntry :=
  (List.range row1.length).foldl (fun a k => routeLabelD θ row1 net2 lo hi e a k t) acc

/-- Modelled from the spec: one timestep over the first network of the duplex
search: joint expansion within the envelope window, failure with `RanOutOfBeam`
on an empty expansion, failure with `IncomparableValues` when a pruning
comparison would meet NaN, otherwise pruning to the top `K` by joint score. -/
def stepD (K : Nat) (θ : R) (net2 : List (List R)) (lo hi : Nat) (t : Nat)
    (row1 : List R) (st : SuffixTree × List DuplexEntry) :
    Except SearchError (SuffixTree × List DuplexEntry) :=
  let ex := st.2.foldl (expandEntryD θ row1 net2 lo hi t) (st.1, [])
  if ex.2.isEmpty then .error .RanOutOfBeam
  else if ex.2.any (fun e => (duplexScore e).isNone) then .error .IncomparableValues
  else .ok (ex.1, topKBy duplexScore K ex.2)

/-- Modelled from the spec: the per-timestep loop of the duplex search over the
rows of the first network, with the per-row envelope windows. -/
def runRowsD (K : Nat) (θ : R) (net2 : List (List R)) :
    SuffixTree × List DuplexEntry → Nat → List (List R) → List (Nat × Nat) →
    Except SearchError (SuffixTree × List DuplexEntry)
  | st, _, [], _ => .ok st
  | st, t, row :: rest, env =>
    let w := env.getD t (0, net2.length)
    match stepD K θ net2 w.1 w.2 t row st with
    | .error e => .error e
    | .ok st' => runRowsD K θ net2 st' (t+1) rest env

/-- Modelled from the spec: the initial duplex state. -/
def initStateD : SuffixTree × List DuplexEntry :=
  (SuffixTree.init, [⟨0, some 1, some 0, some 1, some 0, 0⟩])

/-- Modelled from the spec: duplex finalisation: the single best joint path's
collapsed labelling, spelled through the alphabet; timestamps are not returned. -/
def finaliseD (alphabet : List String) (st : SuffixTree × List DuplexEntry) : String :=
  match pickBestBy duplexScore st.2 with
  | none => ""
  | some (m, _) =>
    String.join (((st.1.path m.node).filter (fun q => decide (q.1 ≠ 0))).map
      (fun q => alphabet.getD q.1 ""))

/-- Modelled from the spec: the dual-sequence "duplex" beam search (spec section
4.D; the repository file `src/duplex.rs` is missing): validate the envelope
(substituting the default `[0, T₂)` rows when it is omitted), then jointly
decode the two networks. -/
def beam_search_duplex (net1 net2 : List (List R)) (alphabet : List String)
    (envelope : Option (List (Nat × Nat))) (K : Nat) (θ : R) :
    Except SearchError String :=
  let env := match envelope with
    | some env => env
    | none => default_envelope net1.length net2.length
  if !check_envelope env net2.length then .error .InvalidEnvelope
  else
    match runRowsD K θ net2 initStateD 0 net1 env with
    | .error e => .error e
    | .ok st => .ok (finaliseD alphabet st)

theorem radd_zero (x : R) : radd x (some 0) = x := by
  cases x <;> simp [radd]

theorem rgt_some (x y : R) (h : rgt x y = true) :
    ∃ a b, x = some a ∧ y = some b ∧ b < a := by
  cases x with
  | none => simp [rgt] at h
  | some a =>
    cases y with
    | none => simp [rgt] at h
    | some b =>
      simp only [rgt, decide_eq_true_eq] at h
      exact ⟨a, b, rfl, rfl, h⟩

theorem lookupPb_addPb_self (nx : List BeamEntry) (n : Nat) (v : R) :
    lookupPb (addPb nx n v) n = radd (lookupPb nx n) v := by
  induction nx with
  | nil => cases v <;> simp [addPb, lookupPb, radd]
  | cons e l ih =>
    by_cases h : e.1 = n
    · simp [addPb, lookupPb, h]
    · simp [addPb, lookupPb, h, ih]

theorem lookupPb_addPb_ne (nx : List BeamEntry) (n m : Nat) (v : R) (h : m ≠ n) :
    lookupPb (addPb nx n v) m = lookupPb nx m := by
  have hnm : n ≠ m := fun hh => h hh.symm
  induction nx with
  | nil => simp [addPb, lookupPb, hnm]
  | cons e l ih =>
    by_cases he : e.1 = n
    · have hem : ¬e.1 = m := fun hh => hnm (he ▸ hh)
      simp [addPb, lookupPb, he, hem, hnm]
    · by_cases hm : e.1 = m
      · have hmn : ¬m = n := fun hh => h hh
        simp [addPb, lookupPb, he, hm, hmn]
      · simp [addPb, lookupPb, he, hm, ih]

theorem lookupNb_addPb (nx : List BeamEntry) (n m : Nat) (v : R) :
    lookupNb (addPb nx n v) m = lookupNb nx m := by
  induction nx with
  | nil => by_cases h : n = m <;> simp [addPb, lookupNb, h]
  | cons e l ih =>
    by_cases he : e.1 = n
    · by_cases hm : e.1 = m <;> simp [addPb, lookupNb, he, hm]
    · by_cases hm : e.1 = m
      · have hmn : ¬m = n := fun hh => he (hm.trans hh)
        simp [addPb, lookupNb, he, hm, hmn]
      · simp [addPb, lookupNb, he, hm, ih]

theorem lookupNb_addNb_self (nx : List BeamEntry) (n : Nat) (v : R) :
    lookupNb (addNb nx n v) n = radd (lookupNb nx n) v := by
  induction nx with
  | nil => cases v <;> simp [addNb, lookupNb, radd]
  | cons e l ih =>
    by_cases h : e.1 = n
    · simp [addNb, lookupNb, h]
    · simp [addNb, lookupNb, h, ih]

theorem lookupNb_addNb_ne (nx : List BeamEntry) (n m : Nat) (v : R) (h : m ≠ n) :
    lookupNb (addNb nx n v) m = lookupNb nx m := by
  have hnm : n ≠ m := fun hh => h hh.symm
  induction nx with
  | nil => simp [addNb, lookupNb, hnm]
  | cons e l ih =>
    by_cases he : e.1 = n
    · have hem : ¬e.1 = m := fun hh => hnm (he ▸ hh)
      simp [addNb, lookupNb, he, hem, hnm]
    · by_cases hm : e.1 = m
      · have hmn : ¬m = n := fun hh => h hh
        simp [addNb, lookupNb, he, hm, hmn]
      · simp [addNb, lookupNb, he, hm, ih]

theorem lookupPb_addNb (nx : List BeamEntry) (n m : Nat) (v : R) :
    lookupPb (addNb nx n v) m = lookupPb nx m := by
  induction nx with
  | nil => by_cases h : n = m <;> simp [addNb, lookupPb, h]
  | cons e l ih =>
    by_cases he : e.1 = n
    · by_cases hm : e.1 = m <;> simp [addNb, lookupPb, he, hm]
    · by_cases hm : e.1 = m
      · have hmn : ¬m = n := fun hh => he (hm.trans hh)
        simp [addNb, lookupPb, he, hm, hmn]
      · simp [addNb, lookupPb, he, hm, ih]

/-- Well-formedness of the arena: nonempty, the root sentinel at id 0, and
every non-root node's parent created before it. -/
structure TreeWF (tr : SuffixTree) : Prop where
  ne : tr.nodes ≠ []
  root_eq : tr.nodes.getD 0 rootNode = rootNode
  parent_lt : ∀ j, 1 ≤ j → j < tr.nodes.length → parent_of tr j < j

theorem get_or_create_child_ne (tr : SuffixTree) (p lab t : Nat)
    (hwf : TreeWF tr) (hp : p < tr.nodes.length) (hlab : lab ≠ 0) :
    (get_or_create_child tr p lab t).2 ≠ p := by
  cases hfind : tr.nodes.findIdx? (fun n => n.parent == p && n.label == lab) with
  | none =>
    simp only [get_or_create_child, hfind]
    omega
  | some i =>
    simp only [get_or_create_child, hfind]
    rw [List.findIdx?_eq_some_iff_getElem] at hfind
    obtain ⟨hi, hpi, -⟩ := hfind
    simp only [Bool.and_eq_true, beq_iff_eq] at hpi
    intro hip
    subst hip
    by_cases h0 : i = 0
    · subst h0
      have hroot : tr.nodes[0] = rootNode := by
        have hr := hwf.root_eq
        rwa [List.getD_eq_getElem?_getD, List.getElem?_eq_getElem hi,
          Option.getD_some] at hr
      rw [hroot] at hpi
      exact hlab hpi.2.symm
    · have hlt := hwf.parent_lt i (by omega) hi
      have hpar : parent_of tr i = i := by
        unfold parent_of
        rw [List.getD_eq_getElem?_getD, List.getElem?_eq_getElem hi,
          Option.getD_some]
        exact hpi.1
      omega

/-- C1: for each beam entry (n, p_b, p_nb) and each label k of row t above the
threshold, expansion routes the mass exactly as specified: for k = 0 the mass
(p_b + p_nb)·network[t][0] accumulates on the same node's next-step blank
channel; for k = label_at(n) the mass p_nb·network[t][k] accumulates on the
same node's non-blank channel and p_b·network[t][k] on the child
get_or_create_child(n, k, t)'s non-blank channel; otherwise
(p_b + p_nb)·network[t][k] accumulates on that child's non-blank channel; in
every case no other destination changes. -/
theorem expansion_routing (θ : R) (row : List R) (t : Nat) (tr : SuffixTree)
    (nx : List BeamEntry) (e : BeamEntry) (k : Nat)
    (pb pnb : ℚ) (hpb : e.2.1 = some pb) (_hpnb : e.2.2 = some pnb) (hpb0 : 0 ≤ pb)
    (hwf : TreeWF tr) (halive : e.1 < tr.nodes.length)
    (hpass : rgt (row.getD k (some 0)) θ = true) :
    (k = 0 →
      (routeLabel θ row t e (tr, nx) k).1 = tr ∧
      lookupPb (routeLabel θ row t e (tr, nx) k).2 e.1 =
        radd (lookupPb nx e.1) (rmul (radd e.2.1 e.2.2) (row.getD k (some 0))) ∧
      (∀ m, lookupNb (routeLabel θ row t e (tr, nx) k).2 m = lookupNb nx m) ∧
      (∀ m, m ≠ e.1 →
        lookupPb (routeLabel θ row t e (tr, nx) k).2 m = lookupPb nx m)) ∧
    (k ≠ 0 → k = label_at tr e.1 →
      lookupNb (routeLabel θ row t e (tr, nx) k).2 e.1 =
        radd (lookupNb nx e.1) (rmul e.2.2 (row.getD k (some 0))) ∧
      lookupNb (routeLabel θ row t e (tr, nx) k).2
          (get_or_create_child tr e.1 k t).2 =
        radd (lookupNb nx (get_or_create_child tr e.1 k t).2)
          (rmul e.2.1 (row.getD k (some 0))) ∧
      (∀ m, lookupPb (routeLabel θ row t e (tr, nx) k).2 m = lookupPb nx m) ∧
      (∀ m, m ≠ e.1 → m ≠ (get_or_create_child tr e.1 k t).2 →
        lookupNb (routeLabel θ row t e (tr, nx) k).2 m = lookupNb nx m)) ∧
    (k ≠ 0 → k ≠ label_at tr e.1 →
      lookupNb (routeLabel θ row t e (tr, nx) k).2
          (get_or_create_child tr e.1 k t).2 =
        radd (lookupNb nx (get_or_create_child tr e.1 k t).2)
          (rmul (radd e.2.1 e.2.2) (row.getD k (some 0))) ∧
      (∀ m, lookupPb (routeLabel θ row t e (tr, nx) k).2 m = lookupPb nx m) ∧
      (∀ m, m ≠ (get_or_create_child tr e.1 k t).2 →
        lookupNb (routeLabel θ row t e (tr, nx) k).2 m = lookupNb nx m)) := by
  obtain ⟨q, -, hq, -, -⟩ := rgt_some _ _ hpass
  refine ⟨?_, ?_, ?_⟩
  · intro hk0
    subst hk0
    simp only [routeLabel, if_pos hpass, eq_self_iff_true, if_true]
    exact ⟨trivial, lookupPb_addPb_self nx e.1 _, fun m => lookupNb_addPb nx e.1 m _,
      fun m hm => lookupPb_addPb_ne nx e.1 m _ hm⟩
  · intro hk0 hklab
    have hne := get_or_create_child_ne tr e.1 k t hwf halive hk0
    have hne' : e.1 ≠ (get_or_create_child tr e.1 k t).2 := fun hh => hne hh.symm
    simp only [routeLabel, if_pos hpass, if_neg hk0, if_pos hklab]
    by_cases hguard : rgt e.2.1 (some 0) = true
    · simp only [if_pos hguard]
      refine ⟨?_, ?_, ?_, ?_⟩
      · rw [lookupNb_addNb_ne _ _ _ _ hne', lookupNb_addNb_self]
      · rw [lookupNb_addNb_self, lookupNb_addNb_ne _ _ _ _ hne]
      · intro m
        rw [lookupPb_addNb, lookupPb_addNb]
      · intro m hm1 hm2
        rw [lookupNb_addNb_ne _ _ _ _ hm2, lookupNb_addNb_ne _ _ _ _ hm1]
    · have hpbz : pb = 0 := by
        rw [hpb] at hguard
        simp only [rgt, decide_eq_true_eq] at hguard
        exact le_antisymm (not_lt.mp hguard) hpb0
      simp only [if_neg hguard]
      refine ⟨?_, ?_, ?_, ?_⟩
      · rw [lookupNb_addNb_self]
      · rw [lookupNb_addNb_ne _ _ _ _ hne, hpb, hpbz, hq]
        simp [rmul, radd_zero]
      · intro m
        rw [lookupPb_addNb]
      · intro m hm1 hm2
        rw [lookupNb_addNb_ne _ _ _ _ hm1]
  · intro hk0 hklab
    simp only [routeLabel, if_pos hpass, if_neg hk0, if_neg hklab]
    refine ⟨?_, ?_, ?_⟩
    · rw [lookupNb_addNb_self]
    · intro m
      rw [lookupPb_addNb]
    · intro m hm
      rw [lookupNb_addNb_ne _ _ _ _ hm]

/-- Concrete two-node tree used by witnesses: a root and one child labelled 1. -/
def wTree2 : SuffixTree := ⟨[rootNode, ⟨0, 1, 0⟩]⟩

theorem initTree_wf : TreeWF SuffixTree.init :=
  ⟨by decide, by decide, fun j h1 h2 => by
    simp [SuffixTree.init] at h2
    omega⟩

theorem wTree2_wf : TreeWF wTree2 :=
  ⟨by decide, by decide, fun j h1 h2 => by
    simp [wTree2] at h2
    have hj : j = 1 := by omega
    subst hj
    decide⟩

theorem expansion_routing_witness :
    (lookupPb (routeLabel (some 0) [some (2 : ℚ), some 3] 0
        (0, some (2 : ℚ), some 1) (SuffixTree.init, []) 0).2 0 =
      radd (lookupPb [] 0)
        (rmul (radd (some (2 : ℚ)) (some 1)) ([some (2 : ℚ), some 3].getD 0 (some 0)))) ∧
    (lookupNb (routeLabel (some 0) [some (2 : ℚ), some 3] 5
        (1, some (2 : ℚ), some 1) (wTree2, []) 1).2
        (get_or_create_child wTree2 1 1 5).2 =
      radd (lookupNb [] (get_or_create_child wTree2 1 1 5).2)
        (rmul (some (2 : ℚ)) ([some (2 : ℚ), some 3].getD 1 (some 0)))) ∧
    (lookupNb (routeLabel (some 0) [some (2 : ℚ), some 3] 7
        (0, some (2 : ℚ), some 1) (SuffixTree.init, []) 1).2
        (get_or_create_child SuffixTree.init 0 1 7).2 =
      radd (lookupNb [] (get_or_create_child SuffixTree.init 0 1 7).2)
        (rmul (radd (some (2 : ℚ)) (some 1)) ([some (2 : ℚ), some 3].getD 1 (some 0)))) :=
  ⟨((expansion_routing (some 0) [some 2, some 3] 0 SuffixTree.init []
      (0, some 2, some 1) 0 2 1 rfl rfl (by norm_num) initTree_wf (by decide)
      (by decide)).1 rfl).2.1,
   ((expansion_routing (some 0) [some 2, some 3] 5 wTree2 []
      (1, some 2, some 1) 1 2 1 rfl rfl (by norm_num) wTree2_wf (by decide)
      (by decide)).2.1 (by decide) rfl).2.1,
   ((expansion_routing (some 0) [some 2, some 3] 7 SuffixTree.init []
      (0, some 2, some 1) 1 2 1 rfl rfl (by norm_num) initTree_wf (by decide)
      (by decide)).2.2 (by decide) (by decide)).1⟩

/-- C5: on success the returned labels contain no blank (index 0) symbols, and
a label repeating the node's most recent non-blank with no blank-ending mass
(no intervening blank on the path) leaves the tree and every other
destination's channels unchanged: two consecutive identical labels can only be
produced through the blank-ending channel. -/
theorem output_no_blanks :
    (∀ network K θ labs times,
      beam_search network K θ = .ok (labs, times) → ∀ x ∈ labs, x ≠ 0) ∧
    (∀ θ row t tr nx e k, k ≠ 0 → k = label_at tr e.1 → e.2.1 = some 0 →
      (routeLabel θ row t e (tr, nx) k).1 = tr ∧
      (∀ m, m ≠ e.1 →
        lookupNb (routeLabel θ row t e (tr, nx) k).2 m = lookupNb nx m) ∧
      (∀ m, lookupPb (routeLabel θ row t e (tr, nx) k).2 m = lookupPb nx m)) := by
  constructor
  · intro network K θ labs times h x hx
    unfold beam_search at h
    split at h
    · cases h
    · rename_i st hst
      injection h with h
      have hx' : x ∈ (finalise st).1 := by rw [h]; exact hx
      unfold finalise at hx'
      split at hx'
      · simp at hx'
      · simp only [List.mem_map] at hx'
        obtain ⟨qq, hq1, hq2⟩ := hx'
        rw [List.mem_filter] at hq1
        have hq3 := hq1.2
        simp only [decide_eq_true_eq] at hq3
        rw [← hq2]
        exact hq3
  · intro θ row t tr nx e k hk0 hklab hpbz
    by_cases hpass : rgt (row.getD k (some 0)) θ = true
    · have hguard : ¬(rgt e.2.1 (some 0) = true) := by
        rw [hpbz]
        simp [rgt]
      simp only [routeLabel, if_pos hpass, if_neg hk0, if_pos hklab, if_neg hguard]
      exact ⟨trivial, fun m hm => lookupNb_addNb_ne _ _ _ _ hm,
        fun m => lookupPb_addNb _ _ _ _⟩
    · simp only [routeLabel, if_neg hpass]
      exact ⟨trivial, fun m _ => trivial, fun m => trivial⟩

theorem output_no_blanks_witness :
    (∀ x ∈ [1], x ≠ 0) ∧
    ((routeLabel (some 0) [some (2 : ℚ), some 3] 4
        (1, some (0 : ℚ), some 1) (wTree2, []) 1).1 = wTree2 ∧
      (∀ m, m ≠ 1 →
        lookupNb (routeLabel (some 0) [some (2 : ℚ), some 3] 4
          (1, some (0 : ℚ), some 1) (wTree2, []) 1).2 m = lookupNb [] m) ∧
      (∀ m, lookupPb (routeLabel (some 0) [some (2 : ℚ), some 3] 4
        (1, some (0 : ℚ), some 1) (wTree2, []) 1).2 m = lookupPb [] m)) :=
  ⟨output_no_blanks.1 [[some (0 : ℚ), some 1]] 1 (some 0) [1] [0] rfl,
   output_no_blanks.2 (some 0) [some 2, some 3] 4 wTree2 [] (1, some 0, some 1) 1
     (by decide) rfl rfl⟩

theorem runRows_append (K : Nat) (θ : R) :
    ∀ (pre : List (List R)) st t rest,
      runRows K θ st t (pre ++ rest) =
        match runRows K θ st t pre with
        | .error e => .error e
        | .ok st' => runRows K θ st' (t + pre.length) rest := by
  intro pre
  induction pre with
  | nil => intro st t rest; simp [runRows]
  | cons row pre ih =>
    intro st t rest
    cases hstep : stepT K θ t row st with
    | error e =>
      simp only [List.cons_append, runRows, hstep]
    | ok st' =>
      simp only [List.cons_append, runRows, hstep, List.append_eq]
      rw [ih]
      simp only [List.length_cons,
        show t + 1 + pre.length = t + (pre.length + 1) from by omega]

/-- C3: if at some timestep the beam is empty after expansion the call fails
with RanOutOfBeam; if a pruning comparison meets NaN the step fails with
IncomparableValues; a failing step aborts the whole decode with its error, and
a failed call returns no result at all. -/
theorem search_failure_modes :
    (∀ K θ network pre row post st,
      network = pre ++ row :: post →
      runRows K θ initState 0 pre = .ok st →
      (expand θ row pre.length st.1 st.2).2 = [] →
      beam_search network K θ = .error .RanOutOfBeam) ∧
    (∀ K θ t row (st : SuffixTree × List BeamEntry),
      (expand θ row t st.1 st.2).2 ≠ [] →
      (∃ e ∈ (expand θ row t st.1 st.2).2, (total e).isNone = true) →
      stepT K θ t row st = .error .IncomparableValues) ∧
    (∀ K θ network pre row post st e,
      network = pre ++ row :: post →
      runRows K θ initState 0 pre = .ok st →
      stepT K θ pre.length row st = .error e →
      beam_search network K θ = .error e) ∧
    (∀ network K θ e (res : List Nat × List Nat),
      beam_search network K θ = .error e → beam_search network K θ ≠ .ok res) := by
  have habort : ∀ K θ network (pre : List (List R)) row post st e,
      network = pre ++ row :: post →
      runRows K θ initState 0 pre = .ok st →
      stepT K θ pre.length row st = .error e →
      beam_search network K θ = .error e := by
    intro K θ network pre row post st e hnet hpre hstep
    subst hnet
    unfold beam_search
    rw [runRows_append, hpre]
    simp only [runRows, Nat.zero_add, hstep]
  refine ⟨?_, ?_, habort, ?_⟩
  · intro K θ network pre row post st hnet hpre hempty
    refine habort K θ network pre row post st _ hnet hpre ?_
    simp only [stepT, hempty, List.isEmpty_nil, if_true]
  · intro K θ t row st hne hnan
    have hempty : (expand θ row t st.1 st.2).2.isEmpty = false := by
      rw [List.isEmpty_eq_false_iff_exists_mem]
      cases hl : (expand θ row t st.1 st.2).2 with
      | nil => exact absurd hl hne
      | cons a l => exact ⟨a, by simp⟩
    have hany : ((expand θ row t st.1 st.2).2.any fun e => (total e).isNone) = true := by
      rw [List.any_eq_true]
      obtain ⟨e, he, hn⟩ := hnan
      exact ⟨e, he, hn⟩
    simp only [stepT, hempty, Bool.false_eq_true, if_false, hany, if_true]
  · intro network K θ e res h hok
    rw [h] at hok
    cases hok

theorem search_failure_modes_witness :
    beam_search [[some (0 : ℚ), some 0]] 1 (some 0) = .error .RanOutOfBeam ∧
    stepT 1 (some 0) 0 [some (1 : ℚ)] (SuffixTree.init, [(0, none, some 0)]) =
      .error .IncomparableValues ∧
    beam_search [[some (0 : ℚ), some 0]] 2 (some 0) = .error .RanOutOfBeam ∧
    beam_search [[some (0 : ℚ), some 0]] 1 (some 0) ≠ .ok ([], []) :=
  ⟨search_failure_modes.1 1 (some 0) [[some 0, some 0]] [] [some 0, some 0] []
      initState rfl rfl rfl,
   search_failure_modes.2.1 1 (some 0) 0 [some 1]
     (SuffixTree.init, [(0, none, some 0)]) (by decide)
     ⟨(0, none, some 0), by decide, rfl⟩,
   search_failure_modes.2.2.1 2 (some 0) [[some 0, some 0]] [] [some 0, some 0] []
     initState .RanOutOfBeam rfl rfl rfl,
   search_failure_modes.2.2.2 [[some 0, some 0]] 1 (some 0) .RanOutOfBeam ([], []) rfl⟩

/-- Tree extension: the arena only ever grows by appending. -/
def Extends (tr tr2 : SuffixTree) : Prop := ∃ ns, tr2.nodes = tr.nodes ++ ns

theorem Extends.rfl (tr : SuffixTree) : Extends tr tr := ⟨[], by simp⟩

theorem Extends.trans {t1 t2 t3 : SuffixTree} (h1 : Extends t1 t2)
    (h2 : Extends t2 t3) : Extends t1 t3 := by
  obtain ⟨a, ha⟩ := h1
  obtain ⟨b, hb⟩ := h2
  exact ⟨a ++ b, by rw [hb, ha, List.append_assoc]⟩

theorem Extends.len_le {t1 t2 : SuffixTree} (h : Extends t1 t2) :
    t1.nodes.length ≤ t2.nodes.length := by
  obtain ⟨a, ha⟩ := h
  simp [ha]

theorem getD_append_left (l l2 : List TreeNode) (n : Nat) (d : TreeNode)
    (h : n < l.length) : (l ++ l2).getD n d = l.getD n d := by
  rw [List.getD_eq_getElem?_getD, List.getD_eq_getElem?_getD,
    List.getElem?_append, if_pos h]

theorem getD_append_self (l : List TreeNode) (nd d : TreeNode) :
    (l ++ [nd]).getD l.length d = nd := by
  rw [List.getD_eq_getElem?_getD, List.getElem?_append_right (Nat.le_refl _)]
  simp

theorem Extends.node_eq {t1 t2 : SuffixTree} (h : Extends t1 t2) (j : Nat)
    (hj : j < t1.nodes.length) :
    t2.nodes.getD j rootNode = t1.nodes.getD j rootNode := by
  obtain ⟨a, ha⟩ := h
  rw [ha, getD_append_left _ _ _ _ hj]

theorem Extends.label_at_eq {t1 t2 : SuffixTree} (h : Extends t1 t2) (j : Nat)
    (hj : j < t1.nodes.length) : label_at t2 j = label_at t1 j := by
  unfold label_at
  rw [h.node_eq j hj]

theorem Extends.parent_of_eq {t1 t2 : SuffixTree} (h : Extends t1 t2) (j : Nat)
    (hj : j < t1.nodes.length) : parent_of t2 j = parent_of t1 j := by
  unfold parent_of
  rw [h.node_eq j hj]

theorem Extends.time_at_eq {t1 t2 : SuffixTree} (h : Extends t1 t2) (j : Nat)
    (hj : j < t1.nodes.length) : time_at t2 j = time_at t1 j := by
  unfold time_at
  rw [h.node_eq j hj]

/-- Invariant of the arena during the decode: well-formed, all non-root node
times strictly below the bound `s`, and parent times at most child times. -/
structure TreeInv (s : Nat) (tr : SuffixTree) : Prop where
  wf : TreeWF tr
  time_lt : ∀ j, 1 ≤ j → j < tr.nodes.length → time_at tr j < s
  ptime : ∀ j, 1 ≤ j → j < tr.nodes.length →
    time_at tr (parent_of tr j) ≤ time_at tr j

theorem TreeInv.mono {s s2 : Nat} {tr : SuffixTree} (h : TreeInv s tr)
    (hs : s ≤ s2) : TreeInv s2 tr :=
  ⟨h.wf, fun j h1 h2 => lt_of_lt_of_le (h.time_lt j h1 h2) hs, h.ptime⟩

theorem root_time (tr : SuffixTree) (hwf : TreeWF tr) : time_at tr 0 = 0 := by
  unfold time_at
  rw [hwf.root_eq]
  rfl

theorem initTree_inv : TreeInv 0 SuffixTree.init :=
  ⟨initTree_wf, fun j h1 h2 => by simp [SuffixTree.init] at h2; omega,
   fun j h1 h2 => by simp [SuffixTree.init] at h2; omega⟩

theorem gocc_spec (tr : SuffixTree) (p lab tc s : Nat) (hinv : TreeInv s tr)
    (hp : p < tr.nodes.length) (hs : s = tc + 1) :
    Extends tr (get_or_create_child tr p lab tc).1 ∧
    TreeInv s (get_or_create_child tr p lab tc).1 ∧
    (get_or_create_child tr p lab tc).2 <
      (get_or_create_child tr p lab tc).1.nodes.length := by
  cases hfind : tr.nodes.findIdx? (fun n => n.parent == p && n.label == lab) with
  | some i =>
    simp only [get_or_create_child, hfind]
    rw [List.findIdx?_eq_some_iff_getElem] at hfind
    obtain ⟨hi, -, -⟩ := hfind
    exact ⟨Extends.rfl tr, hinv, hi⟩
  | none =>
    simp only [get_or_create_child, hfind]
    have hlen0 : 0 < tr.nodes.length := by
      cases hn : tr.nodes with
      | nil => exact absurd hn hinv.wf.ne
      | cons a l => simp [hn]
    have hext : Extends tr ⟨tr.nodes ++ [⟨p, lab, tc⟩]⟩ := ⟨[⟨p, lab, tc⟩], by simp⟩
    have hnew_parent : parent_of ⟨tr.nodes ++ [⟨p, lab, tc⟩]⟩ tr.nodes.length = p := by
      unfold parent_of
      rw [getD_append_self]
    have hnew_label : label_at ⟨tr.nodes ++ [⟨p, lab, tc⟩]⟩ tr.nodes.length = lab := by
      unfold label_at
      rw [getD_append_self]
    have hnew_time : time_at ⟨tr.nodes ++ [⟨p, lab, tc⟩]⟩ tr.nodes.length = tc := by
      unfold time_at
      rw [getD_append_self]
    have hlen : (SuffixTree.nodes ⟨tr.nodes ++ [⟨p, lab, tc⟩]⟩).length =
        tr.nodes.length + 1 := by simp
    refine ⟨hext, ⟨⟨?_, ?_, ?_⟩, ?_, ?_⟩, by simp⟩
    · simp
    · rw [show (SuffixTree.nodes ⟨tr.nodes ++ [⟨p, lab, tc⟩]⟩).getD 0 rootNode =
        tr.nodes.getD 0 rootNode from hext.node_eq 0 hlen0]
      exact hinv.wf.root_eq
    · intro j h1 hj
      rw [hlen] at hj
      by_cases hjl : j < tr.nodes.length
      · rw [hext.parent_of_eq j hjl]
        exact hinv.wf.parent_lt j h1 hjl
      · have hje : j = tr.nodes.length := by omega
        subst hje
        rw [hnew_parent]
        exact hp
    · intro j h1 hj
      rw [hlen] at hj
      by_cases hjl : j < tr.nodes.length
      · rw [hext.time_at_eq j hjl]
        exact hinv.time_lt j h1 hjl
      · have hje : j = tr.nodes.length := by omega
        subst hje
        rw [hnew_time]
        omega
    · intro j h1 hj
      rw [hlen] at hj
      by_cases hjl : j < tr.nodes.length
      · have hpar := hinv.wf.parent_lt j h1 hjl
        rw [hext.parent_of_eq j hjl, hext.time_at_eq j hjl,
          hext.time_at_eq (parent_of tr j) (by omega)]
        exact hinv.ptime j h1 hjl
      · have hje : j = tr.nodes.length := by omega
        subst hje
        rw [hnew_parent, hnew_time, hext.time_at_eq p hp]
        by_cases hp0 : p = 0
        · subst hp0
          rw [root_time tr hinv.wf]
          omega
        · have := hinv.time_lt p (by omega) hp
          omega

theorem fst_mem_addPb (nx : List BeamEntry) (n : Nat) (v : R) :
    ∀ d ∈ addPb nx n v, d.1 = n ∨ ∃ d2 ∈ nx, d.1 = d2.1 := by
  induction nx with
  | nil =>
    intro d hd
    simp only [addPb, List.mem_singleton] at hd
    subst hd
    exact Or.inl rfl
  | cons e l ih =>
    intro d hd
    by_cases he : e.1 = n
    · simp only [addPb, if_pos he] at hd
      rcases List.mem_cons.mp hd with h1 | h1
      · subst h1
        exact Or.inl he
      · exact Or.inr ⟨d, List.mem_cons_of_mem e h1, rfl⟩
    · simp only [addPb, if_neg he] at hd
      rcases List.mem_cons.mp hd with h1 | h1
      · subst h1
        exact Or.inr ⟨d, List.mem_cons_self _ _, rfl⟩
      · rcases ih d h1 with h2 | ⟨d2, hd2, h3⟩
        · exact Or.inl h2
        · exact Or.inr ⟨d2, List.mem_cons_of_mem e hd2, h3⟩

theorem fst_mem_addNb (nx : List BeamEntry) (n : Nat) (v : R) :
    ∀ d ∈ addNb nx n v, d.1 = n ∨ ∃ d2 ∈ nx, d.1 = d2.1 := by
  induction nx with
  | nil =>
    intro d hd
    simp only [addNb, List.mem_singleton] at hd
    subst hd
    exact Or.inl rfl
  | cons e l ih =>
    intro d hd
    by_cases he : e.1 = n
    · simp only [addNb, if_pos he] at hd
      rcases List.mem_cons.mp hd with h1 | h1
      · subst h1
        exact Or.inl he
      · exact Or.inr ⟨d, List.mem_cons_of_mem e h1, rfl⟩
    · simp only [addNb, if_neg he] at hd
      rcases List.mem_cons.mp hd with h1 | h1
      · subst h1
        exact Or.inr ⟨d, List.mem_cons_self _ _, rfl⟩
      · rcases ih d h1 with h2 | ⟨d2, hd2, h3⟩
        · exact Or.inl h2
        · exact Or.inr ⟨d2, List.mem_cons_of_mem e hd2, h3⟩

theorem pickBestBy_mem {α : Type _} (f : α → R) :
    ∀ (l : List α) m r, pickBestBy f l = some (m, r) →
      m ∈ l ∧ ∀ x ∈ r, x ∈ l := by
  intro l
  induction l with
  | nil => intro m r h; cases h
  | cons e l ih =>
    intro m r h
    cases hp : pickBestBy f l with
    | none =>
      simp only [pickBestBy, hp] at h
      simp only [Option.some.injEq, Prod.mk.injEq] at h
      obtain ⟨h1, h2⟩ := h
      subst h1
      subst h2
      exact ⟨List.mem_cons_self _ _, by simp⟩
    | some pr =>
      obtain ⟨m2, r2⟩ := pr
      simp only [pickBestBy, hp] at h
      by_cases hc : rgt (f m2) (f e) = true
      · rw [if_pos hc] at h
        simp only [Option.some.injEq, Prod.mk.injEq] at h
        obtain ⟨h1, h2⟩ := h
        subst h1
        subst h2
        obtain ⟨hm, hr⟩ := ih m2 r2 hp
        refine ⟨List.mem_cons_of_mem e hm, ?_⟩
        intro x hx
        rcases List.mem_cons.mp hx with h3 | h3
        · subst h3
          exact List.mem_cons_self _ _
        · exact List.mem_cons_of_mem e (hr x h3)
      · rw [if_neg hc] at h
        simp only [Option.some.injEq, Prod.mk.injEq] at h
        obtain ⟨h1, h2⟩ := h
        subst h1
        subst h2
        exact ⟨List.mem_cons_self _ _, fun x hx => List.mem_cons_of_mem e hx⟩

theorem topKBy_mem {α : Type _} (f : α → R) :
    ∀ (K : Nat) (l : List α) x, x ∈ topKBy f K l → x ∈ l := by
  intro K
  induction K with
  | zero => intro l x hx; simp [topKBy] at hx
  | succ n ih =>
    intro l x hx
    cases hp : pickBestBy f l with
    | none => simp only [topKBy, hp] at hx; simp at hx
    | some pr =>
      obtain ⟨m, r⟩ := pr
      simp only [topKBy, hp] at hx
      rcases List.mem_cons.mp hx with h1 | h1
      · subst h1
        exact (pickBestBy_mem f l x r hp).1
      · exact (pickBestBy_mem f l m r hp).2 x (ih r x h1)

theorem routeLabel_inv (θ : R) (row : List R) (tc : Nat) (e : BeamEntry) (k : Nat)
    (tr : SuffixTree) (nx : List BeamEntry) (hinv : TreeInv (tc + 1) tr)
    (he : e.1 < tr.nodes.length)
    (hnx : ∀ d ∈ nx, d.1 < tr.nodes.length) :
    Extends tr (routeLabel θ row tc e (tr, nx) k).1 ∧
    TreeInv (tc + 1) (routeLabel θ row tc e (tr, nx) k).1 ∧
    ∀ d ∈ (routeLabel θ row tc e (tr, nx) k).2,
      d.1 < (routeLabel θ row tc e (tr, nx) k).1.nodes.length := by
  by_cases hpass : rgt (row.getD k (some 0)) θ = true
  case neg =>
    simp only [routeLabel, if_neg hpass]
    exact ⟨Extends.rfl tr, hinv, hnx⟩
  case pos =>
  by_cases hk0 : k = 0
  · subst hk0
    simp only [routeLabel, if_pos hpass, eq_self_iff_true, if_true]
    refine ⟨Extends.rfl tr, hinv, ?_⟩
    intro d hd
    rcases fst_mem_addPb nx e.1 _ d hd with h | ⟨d2, hd2, hfst⟩
    · rw [h]; exact he
    · rw [hfst]; exact hnx d2 hd2
  · by_cases hklab : k = label_at tr e.1
    · simp only [routeLabel, if_pos hpass, if_neg hk0, if_pos hklab]
      by_cases hguard : rgt e.2.1 (some 0) = true
      · simp only [if_pos hguard]
        obtain ⟨hext, hinv2, hc⟩ := gocc_spec tr e.1 k tc (tc + 1) hinv he rfl
        refine ⟨hext, hinv2, ?_⟩
        intro d hd
        rcases fst_mem_addNb _ _ _ d hd with h | ⟨d2, hd2, hfst⟩
        · rw [h]; exact hc
        · rcases fst_mem_addNb nx e.1 _ d2 hd2 with h2 | ⟨d3, hd3, hfst2⟩
          · rw [hfst, h2]
            exact lt_of_lt_of_le he hext.len_le
          · rw [hfst, hfst2]
            exact lt_of_lt_of_le (hnx d3 hd3) hext.len_le
      · simp only [if_neg hguard]
        refine ⟨Extends.rfl tr, hinv, ?_⟩
        intro d hd
        rcases fst_mem_addNb nx e.1 _ d hd with h | ⟨d2, hd2, hfst⟩
        · rw [h]; exact he
        · rw [hfst]; exact hnx d2 hd2
    · simp only [routeLabel, if_pos hpass, if_neg hk0, if_neg hklab]
      obtain ⟨hext, hinv2, hc⟩ := gocc_spec tr e.1 k tc (tc + 1) hinv he rfl
      refine ⟨hext, hinv2, ?_⟩
      intro d hd
      rcases fst_mem_addNb _ _ _ d hd with h | ⟨d2, hd2, hfst⟩
      · rw [h]; exact hc
      · rw [hfst]
        exact lt_of_lt_of_le (hnx d2 hd2) hext.len_le

theorem foldRoute_inv (θ : R) (row : List R) (tc : Nat) (e : BeamEntry) :
    ∀ (ks : List Nat) (tr : SuffixTree) (nx : List BeamEntry),
      TreeInv (tc + 1) tr → e.1 < tr.nodes.length →
      (∀ d ∈ nx, d.1 < tr.nodes.length) →
      Extends tr (ks.foldl (routeLabel θ row tc e) (tr, nx)).1 ∧
      TreeInv (tc + 1) (ks.foldl (routeLabel θ row tc e) (tr, nx)).1 ∧
      ∀ d ∈ (ks.foldl (routeLabel θ row tc e) (tr, nx)).2,
        d.1 < (ks.foldl (routeLabel θ row tc e) (tr, nx)).1.nodes.length := by
  intro ks
  induction ks with
  | nil =>
    intro tr nx hinv he hnx
    exact ⟨Extends.rfl tr, hinv, hnx⟩
  | cons k ks ih =>
    intro tr nx hinv he hnx
    simp only [List.foldl_cons]
    obtain ⟨h1, h2, h3⟩ := routeLabel_inv θ row tc e k tr nx hinv he hnx
    obtain ⟨h4, h5, h6⟩ := ih (routeLabel θ row tc e (tr, nx) k).1
      (routeLabel θ row tc e (tr, nx) k).2 h2 (lt_of_lt_of_le he h1.len_le) h3
    rw [Prod.mk.eta] at h4 h5 h6
    exact ⟨h1.trans h4, h5, h6⟩

theorem expandFold_inv (θ : R) (row : List R) (tc : Nat) :
    ∀ (beam : List BeamEntry) (tr0 tr : SuffixTree) (nx : List BeamEntry),
      TreeInv (tc + 1) tr → Extends tr0 tr →
      (∀ e ∈ beam, e.1 < tr0.nodes.length) →
      (∀ d ∈ nx, d.1 < tr.nodes.length) →
      Extends tr (beam.foldl (expandEntry θ row tc) (tr, nx)).1 ∧
      TreeInv (tc + 1) (beam.foldl (expandEntry θ row tc) (tr, nx)).1 ∧
      ∀ d ∈ (beam.foldl (expandEntry θ row tc) (tr, nx)).2,
        d.1 < (beam.foldl (expandEntry θ row tc) (tr, nx)).1.nodes.length := by
  intro beam
  induction beam with
  | nil =>
    intro tr0 tr nx hinv hext0 hbeam hnx
    exact ⟨Extends.rfl tr, hinv, hnx⟩
  | cons e beam ih =>
    intro tr0 tr nx hinv hext0 hbeam hnx
    simp only [List.foldl_cons]
    have he : e.1 < tr.nodes.length :=
      lt_of_lt_of_le (hbeam e (List.mem_cons_self _ _)) hext0.len_le
    obtain ⟨h1, h2, h3⟩ := foldRoute_inv θ row tc e (List.range row.length) tr nx
      hinv he hnx
    obtain ⟨h4, h5, h6⟩ := ih tr0 (expandEntry θ row tc (tr, nx) e).1
      (expandEntry θ row tc (tr, nx) e).2 h2 (hext0.trans h1)
      (fun x hx => hbeam x (List.mem_cons_of_mem e hx)) h3
    rw [Prod.mk.eta] at h4 h5 h6
    exact ⟨Extends.trans h1 h4, h5, h6⟩

theorem expand_inv (θ : R) (row : List R) (tc : Nat) (tr : SuffixTree)
    (beam : List BeamEntry) (hinv : TreeInv (tc + 1) tr)
    (hbeam : ∀ e ∈ beam, e.1 < tr.nodes.length) :
    Extends tr (expand θ row tc tr beam).1 ∧
    TreeInv (tc + 1) (expand θ row tc tr beam).1 ∧
    ∀ d ∈ (expand θ row tc tr beam).2,
      d.1 < (expand θ row tc tr beam).1.nodes.length :=
  expandFold_inv θ row tc beam tr tr [] hinv (Extends.rfl tr) hbeam (by simp)

theorem stepT_inv (K : Nat) (θ : R) (tc : Nat) (row : List R)
    (st st2 : SuffixTree × List BeamEntry) (hinv : TreeInv tc st.1)
    (hbeam : ∀ e ∈ st.2, e.1 < st.1.nodes.length)
    (h : stepT K θ tc row st = .ok st2) :
    TreeInv (tc + 1) st2.1 ∧ (∀ e ∈ st2.2, e.1 < st2.1.nodes.length) ∧
    Extends st.1 st2.1 := by
  obtain ⟨hext, hinv2, hd⟩ :=
    expand_inv θ row tc st.1 st.2 (hinv.mono (Nat.le_succ tc)) hbeam
  simp only [stepT] at h
  split at h
  · cases h
  · split at h
    · cases h
    · injection h with h
      subst h
      exact ⟨hinv2, fun e he => hd e (topKBy_mem total K _ e he), hext⟩

theorem runRows_inv (K : Nat) (θ : R) :
    ∀ (rows : List (List R)) (st : SuffixTree × List BeamEntry) (t : Nat) st2,
      TreeInv t st.1 → (∀ e ∈ st.2, e.1 < st.1.nodes.length) →
      runRows K θ st t rows = .ok st2 →
      TreeInv (t + rows.length) st2.1 ∧
      (∀ e ∈ st2.2, e.1 < st2.1.nodes.length) := by
  intro rows
  induction rows with
  | nil =>
    intro st t st2 hinv hbeam h
    injection h with h
    subst h
    exact ⟨hinv, hbeam⟩
  | cons row rest ih =>
    intro st t st2 hinv hbeam h
    simp only [runRows] at h
    cases hstep : stepT K θ t row st with
    | error e => rw [hstep] at h; cases h
    | ok st3 =>
      rw [hstep] at h
      obtain ⟨hinv3, hbeam3, -⟩ := stepT_inv K θ t row st st3 hinv hbeam hstep
      obtain ⟨hinv2, hbeam2⟩ := ih st3 (t + 1) st2 hinv3 hbeam3 h
      refine ⟨hinv2.mono (by simp [List.length_cons]; omega), hbeam2⟩

theorem pathAux_fuel (tr : SuffixTree) (hwf : TreeWF tr) :
    ∀ i, i < tr.nodes.length → ∀ f, i ≤ f → pathAux tr f i = pathAux tr i i := by
  intro i
  induction i using Nat.strong_induction_on with
  | _ i ih =>
    intro hi f hf
    cases i with
    | zero =>
      cases f with
      | zero => rfl
      | succ g => simp [pathAux]
    | succ n =>
      cases f with
      | zero => omega
      | succ g =>
        have hp := hwf.parent_lt (n + 1) (by omega) hi
        simp only [pathAux, if_neg (Nat.succ_ne_zero n)]
        congr 1
        rw [ih (parent_of tr (n + 1)) (by omega) (by omega) g (by omega),
          ih (parent_of tr (n + 1)) (by omega) (by omega) n (by omega)]

theorem path_rec (tr : SuffixTree) (hwf : TreeWF tr) (i : Nat) (h1 : 1 ≤ i)
    (hi : i < tr.nodes.length) :
    tr.path i = tr.path (parent_of tr i) ++ [(label_at tr i, time_at tr i)] := by
  unfold SuffixTree.path
  cases i with
  | zero => omega
  | succ n =>
    have hp := hwf.parent_lt (n + 1) (by omega) hi
    simp only [pathAux, if_neg (Nat.succ_ne_zero n)]
    congr 1
    exact pathAux_fuel tr hwf (parent_of tr (n + 1)) (by omega) n (by omega)

theorem path_times (tr : SuffixTree) (T : Nat) (hinv : TreeInv T tr) :
    ∀ i, i < tr.nodes.length →
      List.Sorted (· ≤ ·) ((tr.path i).map (fun q => q.2)) ∧
      (∀ q ∈ tr.path i, q.2 ≤ time_at tr i) ∧
      (∀ q ∈ tr.path i, q.2 < T) := by
  intro i
  induction i using Nat.strong_induction_on with
  | _ i ih =>
    intro hi
    cases i with
    | zero =>
      have : tr.path 0 = [] := by simp [SuffixTree.path, pathAux]
      rw [this]
      exact ⟨List.sorted_nil, by simp, by simp⟩
    | succ n =>
      have hp := hinv.wf.parent_lt (n + 1) (by omega) hi
      have hrec := path_rec tr hinv.wf (n + 1) (by omega) hi
      obtain ⟨ihs, ihb, ihT⟩ := ih (parent_of tr (n + 1)) (by omega) (by omega)
      have hpt : time_at tr (parent_of tr (n + 1)) ≤ time_at tr (n + 1) :=
        hinv.ptime (n + 1) (by omega) hi
      rw [hrec]
      refine ⟨?_, ?_, ?_⟩
      · rw [List.map_append]
        rw [List.Sorted, List.pairwise_append]
        refine ⟨ihs, by simp, ?_⟩
        intro x hx y hy
        simp only [List.mem_map] at hx
        obtain ⟨q, hq, hqx⟩ := hx
        simp only [List.map_cons, List.map_nil, List.mem_singleton] at hy
        subst hy
        subst hqx
        exact le_trans (ihb q hq) hpt
      · intro q hq
        rcases List.mem_append.mp hq with h2 | h2
        · exact le_trans (ihb q h2) hpt
        · simp only [List.mem_singleton] at h2
          subst h2
          exact le_refl _
      · intro q hq
        rcases List.mem_append.mp hq with h2 | h2
        · exact ihT q h2
        · simp only [List.mem_singleton] at h2
          subst h2
          exact hinv.time_lt (n + 1) (by omega) hi

/-- C6: on success the timesteps sequence has exactly one entry per emitted
label, is non-decreasing, and every value lies in `[0, T)` where `T` is the
number of rows of the network output. -/
theorem timesteps_spec (network : List (List R)) (K : Nat) (θ : R)
    (labs times : List Nat) (h : beam_search network K θ = .ok (labs, times)) :
    labs.length = times.length ∧ List.Sorted (· ≤ ·) times ∧
    ∀ x ∈ times, x < network.length := by
  unfold beam_search at h
  split at h
  · cases h
  · rename_i st hst
    injection h with h
    obtain ⟨hinv, hbeam⟩ := runRows_inv K θ network initState 0 st
      initTree_inv (by
        intro e he
        simp only [initState, List.mem_singleton] at he
        subst he
        simp [initState, SuffixTree.init]) hst
    rw [Nat.zero_add] at hinv
    have hlab : labs = (finalise st).1 := by rw [h]
    have htimes : times = (finalise st).2 := by rw [h]
    subst hlab
    subst htimes
    cases hpick : pickBest st.2 with
    | none =>
      have hfin : finalise st = ([], []) := by
        unfold finalise
        rw [hpick]
      rw [hfin]
      simp
    | some pr =>
      obtain ⟨m, rest⟩ := pr
      have hfin : finalise st =
          (((st.1.path m.1).filter (fun q => decide (q.1 ≠ 0))).map (fun q => q.1),
           ((st.1.path m.1).filter (fun q => decide (q.1 ≠ 0))).map (fun q => q.2)) := by
        unfold finalise
        rw [hpick]
      rw [hfin]
      have hm : m ∈ st.2 := (pickBestBy_mem total st.2 m rest hpick).1
      have hmlive : m.1 < st.1.nodes.length := hbeam m hm
      obtain ⟨hsorted, -, hbound⟩ := path_times st.1 network.length hinv m.1 hmlive
      refine ⟨by simp, ?_, ?_⟩
      · have hsub : List.Sublist
            (((st.1.path m.1).filter (fun q => decide (q.1 ≠ 0))).map (fun q => q.2))
            ((st.1.path m.1).map (fun q => q.2)) :=
          List.Sublist.map _ (List.filter_sublist _)
        exact List.Pairwise.sublist hsub hsorted
      · intro x hx
        simp only [List.mem_map] at hx
        obtain ⟨q, hq, hqx⟩ := hx
        subst hqx
        exact hbound q (List.mem_of_mem_filter hq)

theorem timesteps_spec_witness :
    [1].length = [0].length ∧ List.Sorted (· ≤ ·) [0] ∧
    ∀ x ∈ [0], x < [[some (0 : ℚ), some 1]].length :=
  timesteps_spec [[some (0 : ℚ), some 1]] 1 (some 0) [1] [0] rfl

/-- One-hot row over `L+1` symbols: probability 1 at index `a`, 0 elsewhere. -/
def oneHotRow (L a : Nat) : List R :=
  (List.range (L + 1)).map (fun k => if k = a then some 1 else some 0)

/-- One-hot encoding of a label sequence with a blank row interleaved after
every label row. -/
def oneHotNet (L : Nat) : List Nat → List (List R)
  | [] => []
  | a :: s => oneHotRow L a :: oneHotRow L 0 :: oneHotNet L s

theorem oneHotRow_length (L a : Nat) : (oneHotRow L a).length = L + 1 := by
  simp [oneHotRow]

theorem oneHotRow_getD (L a k : Nat) :
    (oneHotRow L a).getD k (some 0) =
      if k = a ∧ k < L + 1 then some 1 else some 0 := by
  unfold oneHotRow
  by_cases hk : k < L + 1
  · rw [List.getD_eq_getElem?_getD, List.getElem?_map, List.getElem?_range hk]
    by_cases hka : k = a
    · subst hka
      simp [hk]
    · simp [hka, hk]
  · rw [List.getD_eq_getElem?_getD]
    have hnone : ((List.range (L + 1)).map
        (fun k => if k = a then some (1 : ℚ) else some 0))[k]? = none := by
      apply List.getElem?_eq_none
      simp
      omega
    rw [hnone]
    have : ¬(k = a ∧ k < L + 1) := fun hh => hk hh.2
    simp [this]

theorem foldl_id {β : Type _} (f : β → Nat → β) :
    ∀ (ks : List Nat) (b : β), (∀ b2 k, k ∈ ks → f b2 k = b2) →
      ks.foldl f b = b := by
  intro ks
  induction ks with
  | nil => intro b h; rfl
  | cons k ks ih =>
    intro b h
    simp only [List.foldl_cons]
    rw [h b k (List.mem_cons_self _ _)]
    exact ih b (fun b2 k2 hk2 => h b2 k2 (List.mem_cons_of_mem _ hk2))

theorem foldl_single {β : Type _} (f : β → Nat → β) :
    ∀ (n j : Nat), j < n → (∀ b2 k, k < n → k ≠ j → f b2 k = b2) → ∀ b,
      (List.range n).foldl f b = f b j := by
  intro n
  induction n with
  | zero => intro j hj; omega
  | succ m ih =>
    intro j hj hid b
    rw [List.range_succ, List.foldl_append]
    by_cases hjm : j = m
    · subst hjm
      rw [foldl_id f (List.range j) b (fun b2 k hk => hid b2 k (by
          have := List.mem_range.mp hk
          omega) (by
          have := List.mem_range.mp hk
          omega))]
      simp
    · rw [ih j (by omega) (fun b2 k hk hkj => hid b2 k (by omega) hkj)]
      simp only [List.foldl_cons, List.foldl_nil]
      exact hid (f b j) m (by omega) (fun hh => hjm hh.symm)

/-- Destination classification for the one-hot round trip: every destination is
either the single "good" entry or carries no mass at all. -/
def ZG (c : Nat) (gpb gnb : ℚ) (d : BeamEntry) : Prop :=
  d = (c, some gpb, some gnb) ∨ (d.2.1 = some 0 ∧ d.2.2 = some 0)

/-- Destination keys are pairwise distinct (each node has one scratch slot). -/
def KeysOk (l : List BeamEntry) : Prop :=
  List.Pairwise (fun d d2 => d.1 ≠ d2.1) l

theorem mem_addPb_zero (nx : List BeamEntry) (n : Nat) :
    (∀ d ∈ nx, d ∈ addPb nx n (some 0)) ∧
    (∀ d ∈ addPb nx n (some 0), d ∈ nx ∨ d = (n, some 0, some 0)) := by
  induction nx with
  | nil =>
    refine ⟨by simp, ?_⟩
    intro d hd
    simp only [addPb, List.mem_singleton] at hd
    exact Or.inr hd
  | cons e l ih =>
    obtain ⟨n1, pb1, nb1⟩ := e
    by_cases he : n1 = n
    · subst he
      simp only [addPb, if_pos rfl, radd_zero]
      exact ⟨fun d hd => hd, fun d hd => Or.inl hd⟩
    · simp only [addPb, if_neg he]
      constructor
      · intro d hd
        rcases List.mem_cons.mp hd with h1 | h1
        · subst h1
          exact List.mem_cons_self _ _
        · exact List.mem_cons_of_mem _ (ih.1 d h1)
      · intro d hd
        rcases List.mem_cons.mp hd with h1 | h1
        · subst h1
          exact Or.inl (List.mem_cons_self _ _)
        · rcases ih.2 d h1 with h2 | h2
          · exact Or.inl (List.mem_cons_of_mem _ h2)
          · exact Or.inr h2

theorem mem_addNb_zero (nx : List BeamEntry) (n : Nat) :
    (∀ d ∈ nx, d ∈ addNb nx n (some 0)) ∧
    (∀ d ∈ addNb nx n (some 0), d ∈ nx ∨ d = (n, some 0, some 0)) := by
  induction nx with
  | nil =>
    refine ⟨by simp, ?_⟩
    intro d hd
    simp only [addNb, List.mem_singleton] at hd
    exact Or.inr hd
  | cons e l ih =>
    obtain ⟨n1, pb1, nb1⟩ := e
    by_cases he : n1 = n
    · subst he
      simp only [addNb, if_pos rfl, radd_zero]
      exact ⟨fun d hd => hd, fun d hd => Or.inl hd⟩
    · simp only [addNb, if_neg he]
      constructor
      · intro d hd
        rcases List.mem_cons.mp hd with h1 | h1
        · subst h1
          exact List.mem_cons_self _ _
        · exact List.mem_cons_of_mem _ (ih.1 d h1)
      · intro d hd
        rcases List.mem_cons.mp hd with h1 | h1
        · subst h1
          exact Or.inl (List.mem_cons_self _ _)
        · rcases ih.2 d h1 with h2 | h2
          · exact Or.inl (List.mem_cons_of_mem _ h2)
          · exact Or.inr h2

theorem addPb_keys (nx : List BeamEntry) (n : Nat) (v : R) (h : KeysOk nx) :
    KeysOk (addPb nx n v) := by
  induction nx with
  | nil => exact List.pairwise_singleton _ _
  | cons e l ih =>
    obtain ⟨hhead, htail⟩ := List.pairwise_cons.mp h
    by_cases he : e.1 = n
    · simp only [addPb, if_pos he]
      exact List.pairwise_cons.mpr ⟨hhead, htail⟩
    · simp only [addPb, if_neg he]
      refine List.pairwise_cons.mpr ⟨?_, ih htail⟩
      intro d hd
      rcases fst_mem_addPb l n v d hd with h1 | ⟨d2, hd2, h2⟩
      · rw [h1]
        exact he
      · rw [h2]
        exact hhead d2 hd2

theorem addNb_keys (nx : List BeamEntry) (n : Nat) (v : R) (h : KeysOk nx) :
    KeysOk (addNb nx n v) := by
  induction nx with
  | nil => exact List.pairwise_singleton _ _
  | cons e l ih =>
    obtain ⟨hhead, htail⟩ := List.pairwise_cons.mp h
    by_cases he : e.1 = n
    · simp only [addNb, if_pos he]
      exact List.pairwise_cons.mpr ⟨hhead, htail⟩
    · simp only [addNb, if_neg he]
      refine List.pairwise_cons.mpr ⟨?_, ih htail⟩
      intro d hd
      rcases fst_mem_addNb l n v d hd with h1 | ⟨d2, hd2, h2⟩
      · rw [h1]
        exact he
      · rw [h2]
        exact hhead d2 hd2

theorem pickBestBy_sublist {α : Type _} (f : α → R) :
    ∀ (l : List α) m r, pickBestBy f l = some (m, r) → List.Sublist r l := by
  intro l
  induction l with
  | nil => intro m r h; cases h
  | cons e l ih =>
    intro m r h
    cases hp : pickBestBy f l with
    | none =>
      simp only [pickBestBy, hp, Option.some.injEq, Prod.mk.injEq] at h
      rw [← h.2]
      exact List.nil_sublist _
    | some pr =>
      obtain ⟨m2, r2⟩ := pr
      simp only [pickBestBy, hp] at h
      by_cases hc : rgt (f m2) (f e) = true
      · rw [if_pos hc] at h
        simp only [Option.some.injEq, Prod.mk.injEq] at h
        rw [← h.2]
        exact List.Sublist.cons₂ e (ih m2 r2 hp)
      · rw [if_neg hc] at h
        simp only [Option.some.injEq, Prod.mk.injEq] at h
        rw [← h.2]
        exact List.sublist_cons_self e l

theorem total_zero (d : BeamEntry) (h : d.2.1 = some 0 ∧ d.2.2 = some 0) :
    total d = some 0 := by
  unfold total
  rw [h.1, h.2]
  simp [radd]

theorem total_good (c : Nat) (gpb gnb : ℚ) :
    total (c, some gpb, some gnb) = some (gpb + gnb) := rfl

theorem pickBestBy_none {α : Type _} (f : α → R) :
    ∀ l : List α, pickBestBy f l = none ↔ l = [] := by
  intro l
  cases l with
  | nil => simp [pickBestBy]
  | cons e l =>
    cases hp : pickBestBy f l with
    | none => simp [pickBestBy, hp]
    | some pr =>
      obtain ⟨m2, r2⟩ := pr
      simp only [pickBestBy, hp]
      by_cases hc : rgt (f m2) (f e) = true
      · rw [if_pos hc]
        simp
      · rw [if_neg hc]
        simp

theorem pick_good_val (c : Nat) (gpb gnb : ℚ) (hpos : 0 < gpb + gnb) :
    ∀ l : List BeamEntry, (∀ d ∈ l, ZG c gpb gnb d) →
      (c, some gpb, some gnb) ∈ l →
      ∃ r, pickBestBy total l = some ((c, some gpb, some gnb), r) ∧
        List.Sublist r l := by
  intro l
  induction l with
  | nil => intro _ hm; cases hm
  | cons e l ih =>
    intro hZG hm
    rcases hZG e (List.mem_cons_self _ _) with hegood | hezero
    · subst hegood
      cases hp : pickBestBy total l with
      | none =>
        simp only [pickBestBy, hp]
        exact ⟨[], rfl, List.nil_sublist _⟩
      | some pr =>
        obtain ⟨m2, r2⟩ := pr
        have hm2 : m2 ∈ l := (pickBestBy_mem total l m2 r2 hp).1
        have hc : ¬(rgt (total m2) (total (c, some gpb, some gnb)) = true) := by
          rcases hZG m2 (List.mem_cons_of_mem _ hm2) with h2 | h2
          · rw [h2, total_good]
            simp [rgt]
          · rw [total_zero m2 h2, total_good]
            simp only [rgt, decide_eq_true_eq]
            simp [not_lt.mpr (le_of_lt hpos)]
        simp only [pickBestBy, hp]
        rw [if_neg hc]
        exact ⟨l, rfl, List.sublist_cons_self _ l⟩
    · have hml : (c, some gpb, some gnb) ∈ l := by
        rcases List.mem_cons.mp hm with h1 | h1
        · exfalso
          rw [← h1] at hezero
          simp only [Option.some.injEq] at hezero
          obtain ⟨h2, h3⟩ := hezero
          rw [h2, h3] at hpos
          simp at hpos
        · exact h1
      obtain ⟨r, hr, hsub⟩ := ih (fun d hd => hZG d (List.mem_cons_of_mem _ hd)) hml
      have hc : rgt (total (c, some gpb, some gnb)) (total e) = true := by
        rw [total_zero e hezero, total_good]
        simp only [rgt, decide_eq_true_eq]
        exact hpos
      refine ⟨e :: r, ?_, List.Sublist.cons₂ e hsub⟩
      simp only [pickBestBy, hr]
      rw [if_pos hc]

theorem pick_good_rest (c : Nat) (gpb gnb : ℚ) (hpos : 0 < gpb + gnb) :
    ∀ l : List BeamEntry, (∀ d ∈ l, ZG c gpb gnb d) → KeysOk l →
      (c, some gpb, some gnb) ∈ l →
      ∀ r, pickBestBy total l = some ((c, some gpb, some gnb), r) →
      ∀ d ∈ r, (d.2.1 = some 0 ∧ d.2.2 = some 0) ∧ d.1 ≠ c := by
  intro l
  induction l with
  | nil => intro _ _ hm; cases hm
  | cons e l ih =>
    intro hZG hkeys hm r hr d hd
    obtain ⟨hhead, htail⟩ := List.pairwise_cons.mp hkeys
    rcases hZG e (List.mem_cons_self _ _) with hegood | hezero
    · cases hp : pickBestBy total l with
      | none =>
        simp only [pickBestBy, hp, Option.some.injEq, Prod.mk.injEq] at hr
        rw [← hr.2] at hd
        cases hd
      | some pr =>
        obtain ⟨m2, r2⟩ := pr
        have hm2 : m2 ∈ l := (pickBestBy_mem total l m2 r2 hp).1
        have hc : ¬(rgt (total m2) (total e) = true) := by
          rw [hegood]
          rcases hZG m2 (List.mem_cons_of_mem _ hm2) with h2 | h2
          · rw [h2, total_good]
            simp [rgt]
          · rw [total_zero m2 h2, total_good]
            simp only [rgt, decide_eq_true_eq]
            simp [not_lt.mpr (le_of_lt hpos)]
        simp only [pickBestBy, hp] at hr
        rw [if_neg hc] at hr
        simp only [Option.some.injEq, Prod.mk.injEq] at hr
        rw [← hr.2] at hd
        have hec : e.1 = c := by rw [hegood]
        rcases hZG d (List.mem_cons_of_mem _ hd) with h2 | h2
        · exfalso
          have := hhead d hd
          rw [hec, h2] at this
          exact this rfl
        · refine ⟨h2, ?_⟩
          intro hdc
          have := hhead d hd
          rw [hec, hdc] at this
          exact this rfl
    · have hml : (c, some gpb, some gnb) ∈ l := by
        rcases List.mem_cons.mp hm with h1 | h1
        · exfalso
          rw [← h1] at hezero
          simp only [Option.some.injEq] at hezero
          obtain ⟨h2, h3⟩ := hezero
          rw [h2, h3] at hpos
          simp at hpos
        · exact h1
      have hec : e.1 ≠ c := by
        intro hc2
        have := hhead _ hml
        rw [hc2] at this
        exact this rfl
      cases hp : pickBestBy total l with
      | none =>
        rw [pickBestBy_none] at hp
        rw [hp] at hml
        cases hml
      | some pr =>
        obtain ⟨m2, r2⟩ := pr
        simp only [pickBestBy, hp] at hr
        by_cases hc : rgt (total m2) (total e) = true
        · rw [if_pos hc] at hr
          simp only [Option.some.injEq, Prod.mk.injEq] at hr
          obtain ⟨hr1, hr2⟩ := hr
          rw [← hr2] at hd
          rcases List.mem_cons.mp hd with h1 | h1
          · subst h1
            exact ⟨hezero, hec⟩
          · rw [hr1] at hp
            exact ih (fun d2 hd2 => hZG d2 (List.mem_cons_of_mem _ hd2)) htail
              hml r2 hp d h1
        · rw [if_neg hc] at hr
          simp only [Option.some.injEq, Prod.mk.injEq] at hr
          exfalso
          rw [hr.1] at hezero
          simp only [Option.some.injEq] at hezero
          obtain ⟨h2, h3⟩ := hezero
          rw [h2, h3] at hpos
          simp at hpos

/-- Prop form of the envelope invariants of spec section 3: each row satisfies
`lo ≤ hi ≤ T₂`, both bounds are non-decreasing across adjacent rows, the first
row's `lo` is 0 and the last row's `hi` is `T₂`. -/
def EnvelopeOk (env : List (Nat × Nat)) (T2 : Nat) : Prop :=
  (∀ r ∈ env, r.1 ≤ r.2 ∧ r.2 ≤ T2) ∧
  (∀ q ∈ env.zip (env.drop 1), q.1.1 ≤ q.2.1 ∧ q.1.2 ≤ q.2.2) ∧
  (∀ r ∈ env.head?, r.1 = 0) ∧
  (∀ r ∈ env.getLast?, r.2 = T2)

theorem check_envelope_iff (env : List (Nat × Nat)) (T2 : Nat) :
    check_envelope env T2 = true ↔ EnvelopeOk env T2 := by
  unfold check_envelope EnvelopeOk
  simp only [Bool.and_eq_true, List.all_eq_true, decide_eq_true_eq]
  constructor
  · rintro ⟨⟨⟨h1, h2⟩, h3⟩, h4⟩
    refine ⟨fun r hr => by simpa using h1 r hr, fun q hq => by simpa using h2 q hq, ?_, ?_⟩
    · intro r hr
      rw [Option.mem_def] at hr
      rw [hr] at h3
      simpa using h3
    · intro r hr
      rw [Option.mem_def] at hr
      rw [hr] at h4
      simpa using h4
  · rintro ⟨h1, h2, h3, h4⟩
    refine ⟨⟨⟨fun r hr => by simpa using h1 r hr, fun q hq => by simpa using h2 q hq⟩, ?_⟩, ?_⟩
    · cases hh : env.head? with
      | none => simp
      | some r => simpa using h3 r (by simp [Option.mem_def, hh])
    · cases hh : env.getLast? with
      | none => simp
      | some r => simpa using h4 r (by simp [Option.mem_def, hh])

theorem stepD_no_invalid (K : Nat) (θ : R) (net2 : List (List R)) (lo hi t : Nat)
    (row1 : List R) (st : SuffixTree × List DuplexEntry) (e : SearchError)
    (h : stepD K θ net2 lo hi t row1 st = .error e) : e ≠ .InvalidEnvelope := by
  simp only [stepD] at h
  split at h
  · cases h; intro hc; cases hc
  · split at h
    · cases h; intro hc; cases hc
    · cases h

theorem runRowsD_no_invalid (K : Nat) (θ : R) (net2 : List (List R)) :
    ∀ rows st t env e, runRowsD K θ net2 st t rows env = .error e →
      e ≠ .InvalidEnvelope := by
  intro rows
  induction rows with
  | nil => intro st t env e h; cases h
  | cons row rest ih =>
    intro st t env e h
    simp only [runRowsD] at h
    split at h
    · cases h
      exact stepD_no_invalid _ _ _ _ _ _ _ _ _ (by assumption)
    · exact ih _ _ _ _ h

/-- C8: the dual-sequence search fails with InvalidEnvelope exactly when the
supplied envelope violates the invariants `0 ≤ lo ≤ hi ≤ T₂`, `lo` and `hi`
non-decreasing across rows, `envelope[0].lo = 0`, `envelope[T₁−1].hi = T₂`;
when the envelope is omitted, `[0, T₂)` is substituted on every row. -/
theorem duplex_envelope_spec :
    (∀ net1 net2 alphabet env K θ,
      beam_search_duplex net1 net2 alphabet (some env) K θ = .error .InvalidEnvelope
        ↔ ¬ EnvelopeOk env net2.length) ∧
    (∀ net1 net2 alphabet K θ,
      beam_search_duplex net1 net2 alphabet none K θ =
        beam_search_duplex net1 net2 alphabet
          (some (default_envelope net1.length net2.length)) K θ) := by
  constructor
  · intro net1 net2 alphabet env K θ
    rw [← check_envelope_iff]
    simp only [beam_search_duplex]
    constructor
    · intro h hc
      rw [hc] at h
      simp only [Bool.not_true, Bool.false_eq_true, if_false] at h
      split at h
      · rename_i e he
        exact runRowsD_no_invalid _ _ _ _ _ _ _ _ he (by cases h; rfl)
      · cases h
    · intro hc
      rw [Bool.not_eq_true] at hc
      rw [hc]
      rfl
  · intro net1 net2 alphabet K θ
    rfl

theorem validate_args_eq_none_iff (network : List (List R)) (alphabet : List String)
    (K : Nat) (θ : R) :
    validate_args network alphabet K θ = none ↔
      (2 ≤ alphabet.length ∧ (∀ row ∈ network, row.length = alphabet.length) ∧
       1 ≤ K ∧ rle (some 0) θ = true ∧
       rgt (some ((1 : ℚ) / alphabet.length)) θ = true) := by
  unfold validate_args
  split_ifs with h1 h2 h3 h4
  · simp only [reduceCtorEq, false_iff]
    intro hc
    omega
  · simp only [List.any_eq_true, decide_eq_true_eq] at h2
    simp only [reduceCtorEq, false_iff]
    rintro ⟨-, hall, -⟩
    obtain ⟨row, hrow, hne⟩ := h2
    exact hne (hall row hrow)
  · simp only [reduceCtorEq, false_iff]
    intro hc
    omega
  · have h4' : (rle (some 0) θ && rgt (some ((1 : ℚ) / alphabet.length)) θ) = false := by
      revert h4
      cases rle (some 0) θ && rgt (some ((1 : ℚ) / alphabet.length)) θ <;> simp
    rw [Bool.and_eq_false_iff] at h4'
    simp only [reduceCtorEq, false_iff]
    rintro ⟨-, -, -, ha, hb⟩
    rcases h4' with h4' | h4' <;> simp_all
  · simp only [List.any_eq_true, decide_eq_true_eq] at h2
    have h4' : (rle (some 0) θ && rgt (some ((1 : ℚ) / alphabet.length)) θ) = true := by
      revert h4
      cases rle (some 0) θ && rgt (some ((1 : ℚ) / alphabet.length)) θ <;> simp
    rw [Bool.and_eq_true] at h4'
    push_neg at h2
    constructor
    · intro _
      exact ⟨by omega, h2, by omega, h4'.1, h4'.2⟩
    · intro _
      rfl

/-- C4: for every input violating the entry constraints of spec section 6
(alphabet length at least 2 and equal to the inner axis of every network row,
beam size at least 1, threshold in `[0, 1/alphabet.len())`), the corresponding
error kind is returned; the error is produced before any decode work, reading
the network only through its row lengths, and the decoder is never entered. -/
theorem validate_args_before_decode :
    (∀ network alphabet K θ,
      (∃ e, validate_args network alphabet K θ = some e) ↔
        ¬(2 ≤ alphabet.length ∧ (∀ row ∈ network, row.length = alphabet.length) ∧
          1 ≤ K ∧ rle (some 0) θ = true ∧
          rgt (some ((1 : ℚ) / alphabet.length)) θ = true)) ∧
    (∀ network alphabet K θ e, validate_args network alphabet K θ = some e →
      beam_search_checked network alphabet K θ = .error (.inl e)) ∧
    (∀ network network' alphabet K θ,
      network.map List.length = network'.map List.length →
      validate_args network alphabet K θ = validate_args network' alphabet K θ) ∧
    (∀ network alphabet K θ, alphabet.length < 2 →
      validate_args network alphabet K θ = some .AlphabetTooSmall) ∧
    (∀ network alphabet K θ, 2 ≤ alphabet.length →
      (∃ row ∈ network, row.length ≠ alphabet.length) →
      validate_args network alphabet K θ = some .ShapeMismatch) ∧
    (∀ network alphabet K θ, 2 ≤ alphabet.length →
      (∀ row ∈ network, row.length = alphabet.length) → K = 0 →
      validate_args network alphabet K θ = some .BeamSizeZero) ∧
    (∀ network alphabet K θ, 2 ≤ alphabet.length →
      (∀ row ∈ network, row.length = alphabet.length) → 1 ≤ K →
      ¬(rle (some 0) θ = true ∧ rgt (some ((1 : ℚ) / alphabet.length)) θ = true) →
      validate_args network alphabet K θ = some .BadThreshold) := by
  refine ⟨?_, ?_, ?_, ?_, ?_, ?_, ?_⟩
  · intro network alphabet K θ
    rw [← validate_args_eq_none_iff]
    cases h : validate_args network alphabet K θ <;> simp [h]
  · intro network alphabet K θ e h
    unfold beam_search_checked
    rw [h]
  · intro network network' alphabet K θ h
    unfold validate_args
    have : network.any (fun row => decide ¬(row.length = alphabet.length)) =
        network'.any (fun row => decide ¬(row.length = alphabet.length)) := by
      have h1 : ∀ net : List (List R),
          net.any (fun row => decide ¬(row.length = alphabet.length)) =
          (net.map List.length).any (fun l => decide ¬(l = alphabet.length)) := by
        intro net
        induction net with
        | nil => rfl
        | cons a l ih =>
          simp only [List.any_cons, List.map_cons]
          rw [ih]
      rw [h1, h1, h]
    rw [this]
  · intro network alphabet K θ h
    unfold validate_args
    rw [if_pos h]
  · intro network alphabet K θ h1 h2
    unfold validate_args
    rw [if_neg (by omega)]
    have : network.any (fun row => decide ¬(row.length = alphabet.length)) = true := by
      simp only [List.any_eq_true, decide_eq_true_eq]
      exact h2
    rw [if_pos this]
  · intro network alphabet K θ h1 h2 h3
    unfold validate_args
    rw [if_neg (by omega)]
    have : network.any (fun row => decide ¬(row.length = alphabet.length)) = false := by
      simp only [List.any_eq_false, decide_eq_true_eq]
      intro row hrow
      simp [h2 row hrow]
    rw [this]
    simp [h3]
  · intro network alphabet K θ h1 h2 h3 h4
    unfold validate_args
    rw [if_neg (by omega)]
    have : network.any (fun row => decide ¬(row.length = alphabet.length)) = false := by
      simp only [List.any_eq_false, decide_eq_true_eq]
      intro row hrow
      simp [h2 row hrow]
    rw [this]
    simp only [Bool.false_eq_true, if_false]
    rw [if_neg (by omega)]
    have : (rle (some 0) θ && rgt (some ((1 : ℚ) / alphabet.length)) θ) = false := by
      rw [Bool.and_eq_false_iff]
      by_cases ha : rle (some 0) θ = true
      · right
        by_cases hb : rgt (some ((1 : ℚ) / alphabet.length)) θ = true
        · exact absurd ⟨ha, hb⟩ h4
        · simpa using hb
      · left
        simpa using ha
    rw [this]
    rfl

theorem validate_args_before_decode_witness :
    (∃ e, validate_args [[some 0]] ["N"] 1 (some 0) = some e) ∧
    beam_search_checked [[some 0]] ["N"] 1 (some 0) =
      .error (.inl .AlphabetTooSmall) ∧
    validate_args [[some 0, some 0]] ["N", "A"] 1 (some 0) =
      validate_args [[some 1, some 1]] ["N", "A"] 1 (some 0) ∧
    validate_args [[some 0]] ["N"] 1 (some 0) = some .AlphabetTooSmall ∧
    validate_args [[some 0]] ["N", "A"] 1 (some 0) = some .ShapeMismatch ∧
    validate_args [[some 0, some 0]] ["N", "A"] 0 (some 0) = some .BeamSizeZero ∧
    validate_args [[some 0, some 0]] ["N", "A"] 1 (some 1) = some .BadThreshold :=
  ⟨(validate_args_before_decode.1 [[some 0]] ["N"] 1 (some 0)).2 (by
      intro h
      simp at h),
   validate_args_before_decode.2.1 [[some 0]] ["N"] 1 (some 0) .AlphabetTooSmall rfl,
   validate_args_before_decode.2.2.1 [[some 0, some 0]] [[some 1, some 1]]
     ["N", "A"] 1 (some 0) rfl,
   validate_args_before_decode.2.2.2.1 [[some 0]] ["N"] 1 (some 0) (by decide),
   validate_args_before_decode.2.2.2.2.1 [[some 0]] ["N", "A"] 1 (some 0)
     (by decide) ⟨[some 0], by simp, by decide⟩,
   validate_args_before_decode.2.2.2.2.2.1 [[some 0, some 0]] ["N", "A"] 0 (some 0)
     (by decide) (by
       intro row hrow
       simp at hrow
       simp [hrow]) rfl,
   validate_args_before_decode.2.2.2.2.2.2 [[some 0, some 0]] ["N", "A"] 1 (some 1)
     (by decide) (by
       intro row hrow
       simp at hrow
       simp [hrow]) (by decide) (by
       rintro ⟨-, hb⟩
       simp only [rgt, decide_eq_true_eq] at hb
       norm_num at hb)⟩

/-- C9: every value of the error type is one of exactly the three kinds
RanOutOfBeam, IncomparableValues and InvalidEnvelope, and every failure of
either entry point is reported through that type. -/
theorem searchError_closed :
    (∀ e : SearchError,
      e = .RanOutOfBeam ∨ e = .IncomparableValues ∨ e = .InvalidEnvelope) ∧
    (∀ network K θ e, beam_search network K θ = .error e →
      e = .RanOutOfBeam ∨ e = .IncomparableValues ∨ e = .InvalidEnvelope) ∧
    (∀ net1 net2 alphabet env K θ e,
      beam_search_duplex net1 net2 alphabet env K θ = .error e →
      e = .RanOutOfBeam ∨ e = .IncomparableValues ∨ e = .InvalidEnvelope) := by
  refine ⟨?_, ?_, ?_⟩
  · intro e; cases e
    · exact Or.inl rfl
    · exact Or.inr (Or.inl rfl)
    · exact Or.inr (Or.inr rfl)
  · intro _ _ _ e _; cases e
    · exact Or.inl rfl
    · exact Or.inr (Or.inl rfl)
    · exact Or.inr (Or.inr rfl)
  · intro _ _ _ _ _ _ e _; cases e
    · exact Or.inl rfl
    · exact Or.inr (Or.inl rfl)
    · exact Or.inr (Or.inr rfl)

theorem searchError_closed_witness :
    (SearchError.RanOutOfBeam = .RanOutOfBeam ∨
      SearchError.RanOutOfBeam = .IncomparableValues ∨
      SearchError.RanOutOfBeam = .InvalidEnvelope) ∧
    (SearchError.RanOutOfBeam = .RanOutOfBeam ∨
      SearchError.RanOutOfBeam = .IncomparableValues ∨
      SearchError.RanOutOfBeam = .InvalidEnvelope) ∧
    (SearchError.InvalidEnvelope = .RanOutOfBeam ∨
      SearchError.InvalidEnvelope = .IncomparableValues ∨
      SearchError.InvalidEnvelope = .InvalidEnvelope) :=
  ⟨searchError_closed.1 .RanOutOfBeam,
   searchError_closed.2.1 [[some 0, some 0]] 1 (some 0) .RanOutOfBeam rfl,
   searchError_closed.2.2 [] [] [] (some [(1, 0)]) 1 (some 0) .InvalidEnvelope rfl⟩

/-- C10: formatting a SearchError for display is a function of the error value
alone (hence deterministic) and yields exactly the three strings of
`impl fmt::Display for SearchError` in `src/src/lib.rs`. -/
theorem searchError_display_spec :
    SearchError.RanOutOfBeam.display =
      "Ran out of search space (beam_cut_threshold too high)" ∧
    SearchError.IncomparableValues.display =
      "Failed to compare values (NaNs in input?)" ∧
    SearchError.InvalidEnvelope.display = "Invalid envelope values" :=
  ⟨rfl, rfl, rfl⟩


/-- Modelled from the spec: the winning score of the single-sequence search —
the largest `p_b + p_nb` over the final beam (the score finalisation commits
to), or `none` when the search fails. -/
def bestScore (network : List (List R)) (beam_size : Nat)
    (beam_cut_threshold : R) : Option ℚ :=
  match runRows beam_size beam_cut_threshold initState 0 network with
  | .error _ => none
  | .ok st =>
    match pickBest st.2 with
    | none => none
    | some pr => total pr.1

/-- Row 0 of the counterexample network: blank impossible, label 1 likely. -/
def ceRow0 : List R := [some 0, some (mkRat 3 5), some (mkRat 2 5)]

/-- Row 1 of the counterexample network: blank impossible, label 2 likely. -/
def ceRow1 : List R := [some 0, some (mkRat 2 5), some (mkRat 3 5)]

/-- Rows 2-4 of the counterexample network: all three symbols possible. -/
def ceRowC : List R := [some (mkRat 7 20), some (mkRat 1 2), some (mkRat 3 20)]

/-- A 5-timestep, 2-label network (each row sums to 1) on which widening the
beam from 1 to 2 strictly lowers the winning score: the wider beam keeps a
second prefix whose expansions drain mass from the eventual winner's channels. -/
def ceNet : List (List R) := [ceRow0, ceRow1, ceRowC, ceRowC, ceRowC]

/-- Strict comparison of scalars is asymmetric. -/
theorem rgt_asymm (x y : R) (h : rgt x y = true) : rgt y x = false := by
  obtain ⟨a, b, hx, hy, hba⟩ := rgt_some x y h
  subst hx
  subst hy
  simp only [rgt, decide_eq_false_iff_not]
  exact not_lt.mpr hba.le

/-- `pickBestBy` permutes its input into the chosen element and the rest. -/
theorem pickBestBy_perm {α : Type _} (f : α → R) :
    ∀ (l : List α) m r, pickBestBy f l = some (m, r) → l.Perm (m :: r) := by
  intro l
  induction l with
  | nil => intro m r h; cases h
  | cons e l ih =>
    intro m r h
    cases hp : pickBestBy f l with
    | none =>
      rw [pickBestBy_none] at hp
      subst hp
      simp only [pickBestBy, Option.some.injEq, Prod.mk.injEq] at h
      obtain ⟨h1, h2⟩ := h
      subst h1
      subst h2
      exact List.Perm.refl _
    | some pr =>
      obtain ⟨m2, r2⟩ := pr
      simp only [pickBestBy, hp] at h
      by_cases hc : rgt (f m2) (f e) = true
      · rw [if_pos hc] at h
        simp only [Option.some.injEq, Prod.mk.injEq] at h
        obtain ⟨h1, h2⟩ := h
        subst h1
        subst h2
        exact ((ih m2 r2 hp).cons e).trans (List.Perm.swap m2 e r2)
      · rw [if_neg hc] at h
        simp only [Option.some.injEq, Prod.mk.injEq] at h
        obtain ⟨h1, h2⟩ := h
        subst h1
        subst h2
        exact List.Perm.refl _

/-- No element left behind by `pickBestBy` scores strictly higher than the
chosen one, provided no score is NaN. -/
theorem pickBestBy_max {α : Type _} (f : α → R) :
    ∀ (l : List α) m r, (∀ x ∈ l, (f x).isNone = false) →
      pickBestBy f l = some (m, r) → ∀ x ∈ r, rgt (f x) (f m) = false := by
  intro l
  induction l with
  | nil => intro m r _ h; cases h
  | cons e l ih =>
    intro m r hn h
    cases hp : pickBestBy f l with
    | none =>
      rw [pickBestBy_none] at hp
      subst hp
      simp only [pickBestBy, Option.some.injEq, Prod.mk.injEq] at h
      obtain ⟨h1, h2⟩ := h
      subst h1
      subst h2
      intro x hx
      cases hx
    | some pr =>
      obtain ⟨m2, r2⟩ := pr
      have hnl : ∀ x ∈ l, (f x).isNone = false :=
        fun x hx => hn x (List.mem_cons_of_mem e hx)
      have ihm := ih m2 r2 hnl hp
      simp only [pickBestBy, hp] at h
      by_cases hc : rgt (f m2) (f e) = true
      · rw [if_pos hc] at h
        simp only [Option.some.injEq, Prod.mk.injEq] at h
        obtain ⟨h1, h2⟩ := h
        subst h1
        subst h2
        intro x hx
        rcases List.mem_cons.mp hx with h3 | h3
        · subst h3
          exact rgt_asymm _ _ hc
        · exact ihm x h3
      · rw [if_neg hc] at h
        simp only [Option.some.injEq, Prod.mk.injEq] at h
        obtain ⟨h1, h2⟩ := h
        subst h1
        subst h2
        intro x hx
        have hperm := pickBestBy_perm f l m2 r2 hp
        have hx2 : x = m2 ∨ x ∈ r2 := List.mem_cons.mp (hperm.mem_iff.mp hx)
        have hce : rgt (f m2) (f e) = false := Bool.eq_false_iff.mpr hc
        obtain ⟨b, hb⟩ : ∃ b, f m2 = some b := by
          have hm2 := hnl m2 (pickBestBy_mem f l m2 r2 hp).1
          cases hfm : f m2
          · rw [hfm] at hm2; simp at hm2
          · exact ⟨_, rfl⟩
        obtain ⟨c, hcv⟩ : ∃ c, f e = some c := by
          have he := hn e (List.mem_cons_self e l)
          cases hfe : f e
          · rw [hfe] at he; simp at he
          · exact ⟨_, rfl⟩
        rcases hx2 with rfl | hx2
        · exact hce
        · obtain ⟨a, ha⟩ : ∃ a, f x = some a := by
            have hxm := hnl x ((pickBestBy_mem f l m2 r2 hp).2 x hx2)
            cases hfx : f x
            · rw [hfx] at hxm; simp at hxm
            · exact ⟨_, rfl⟩
          have h1 := ihm x hx2
          rw [ha, hb] at h1
          rw [hb, hcv] at hce
          rw [ha, hcv]
          simp only [rgt, decide_eq_false_iff_not] at h1 hce ⊢
          intro hca
          exact hce (lt_of_lt_of_le hca (not_lt.mp h1))

/-- Prepending an element that no list element strictly beats makes it the
`pickBestBy` choice. -/
theorem pickBestBy_cons_of_max {α : Type _} (f : α → R) (m : α) (l : List α)
    (h : ∀ x ∈ l, rgt (f x) (f m) = false) :
    ∃ r2, pickBestBy f (m :: l) = some (m, r2) := by
  cases hp : pickBestBy f l with
  | none =>
    refine ⟨[], ?_⟩
    simp [pickBestBy, hp]
  | some pr =>
    obtain ⟨m2, r2⟩ := pr
    have hfalse : rgt (f m2) (f m) = false :=
      h m2 (pickBestBy_mem f l m2 r2 hp).1
    refine ⟨l, ?_⟩
    simp only [pickBestBy, hp]
    rw [if_neg (by simp [hfalse])]

/-- The `pickBestBy` winner survives top-K selection for any K ≥ 1 when no
score is NaN. -/
theorem pickBest_topKBy {α : Type _} (f : α → R) (K : Nat) (l : List α)
    (m : α) (r : List α) (hn : ∀ x ∈ l, (f x).isNone = false) (hK : 1 ≤ K)
    (hp : pickBestBy f l = some (m, r)) :
    ∃ r2, pickBestBy f (topKBy f K l) = some (m, r2) := by
  obtain ⟨n, rfl⟩ : ∃ n, K = n + 1 := ⟨K - 1, by omega⟩
  simp only [topKBy, hp]
  exact pickBestBy_cons_of_max f m (topKBy f n r)
    (fun x hx => pickBestBy_max f l m r hn hp x (topKBy_mem f n r x hx))

/-- C7 counterexample: on the network `ceNet` with threshold 0 and beam sizes
K = 1 and 2K = 2, the winning score of beam size 1 is 153/2000 while the
winning score of beam size 2 is only 7599/100000 < 153/2000 — so doubling the
beam size can strictly decrease the winning score, refuting the claimed
monotonicity. -/
theorem beam_widening_counterexample :
    bestScore ceNet 1 (some 0) = some (mkRat 153 2000) ∧
    bestScore ceNet 2 (some 0) = some (mkRat 7599 100000) ∧
    mkRat 7599 100000 < mkRat 153 2000 := by
  refine ⟨?_, ?_, by decide⟩
  · have s1 : stepT 1 (some 0) 0 ceRow0 initState =
        .ok ⟨⟨[⟨0,0,0⟩, ⟨0,1,0⟩, ⟨0,2,0⟩]⟩,
          [(1, some 0, some (mkRat 3 5))]⟩ := by with_unfolding_all rfl
    have s2 : stepT 1 (some 0) 1 ceRow1
        ⟨⟨[⟨0,0,0⟩, ⟨0,1,0⟩, ⟨0,2,0⟩]⟩, [(1, some 0, some (mkRat 3 5))]⟩ =
        .ok ⟨⟨[⟨0,0,0⟩, ⟨0,1,0⟩, ⟨0,2,0⟩, ⟨1,2,1⟩]⟩,
          [(3, some 0, some (mkRat 9 25))]⟩ := by with_unfolding_all rfl
    have s3 : stepT 1 (some 0) 2 ceRowC
        ⟨⟨[⟨0,0,0⟩, ⟨0,1,0⟩, ⟨0,2,0⟩, ⟨1,2,1⟩]⟩, [(3, some 0, some (mkRat 9 25))]⟩ =
        .ok ⟨⟨[⟨0,0,0⟩, ⟨0,1,0⟩, ⟨0,2,0⟩, ⟨1,2,1⟩, ⟨3,1,2⟩]⟩,
          [(3, some (mkRat 63 500), some (mkRat 27 500))]⟩ := by
      with_unfolding_all rfl
    have s4 : stepT 1 (some 0) 3 ceRowC
        ⟨⟨[⟨0,0,0⟩, ⟨0,1,0⟩, ⟨0,2,0⟩, ⟨1,2,1⟩, ⟨3,1,2⟩]⟩,
          [(3, some (mkRat 63 500), some (mkRat 27 500))]⟩ =
        .ok ⟨⟨[⟨0,0,0⟩, ⟨0,1,0⟩, ⟨0,2,0⟩, ⟨1,2,1⟩, ⟨3,1,2⟩, ⟨3,2,3⟩]⟩,
          [(4, some 0, some (mkRat 9 100))]⟩ := by with_unfolding_all rfl
    have s5 : stepT 1 (some 0) 4 ceRowC
        ⟨⟨[⟨0,0,0⟩, ⟨0,1,0⟩, ⟨0,2,0⟩, ⟨1,2,1⟩, ⟨3,1,2⟩, ⟨3,2,3⟩]⟩,
          [(4, some 0, some (mkRat 9 100))]⟩ =
        .ok ⟨⟨[⟨0,0,0⟩, ⟨0,1,0⟩, ⟨0,2,0⟩, ⟨1,2,1⟩, ⟨3,1,2⟩, ⟨3,2,3⟩, ⟨4,2,4⟩]⟩,
          [(4, some (mkRat 63 2000), some (mkRat 9 200))]⟩ := by
      with_unfolding_all rfl
    have hrun : runRows 1 (some 0) initState 0 ceNet =
        .ok (⟨⟨[⟨0,0,0⟩, ⟨0,1,0⟩, ⟨0,2,0⟩, ⟨1,2,1⟩, ⟨3,1,2⟩, ⟨3,2,3⟩, ⟨4,2,4⟩]⟩,
          [(4, some (mkRat 63 2000), some (mkRat 9 200))]⟩) := by
      unfold ceNet
      simp only [runRows, s1, s2, s3, s4, s5]
    unfold bestScore
    rw [hrun]
    with_unfolding_all rfl
  · have s1 : stepT 2 (some 0) 0 ceRow0 initState =
        .ok ⟨⟨[⟨0,0,0⟩, ⟨0,1,0⟩, ⟨0,2,0⟩]⟩,
          [(1, some 0, some (mkRat 3 5)), (2, some 0, some (mkRat 2 5))]⟩ := by
      with_unfolding_all rfl
    have s2 : stepT 2 (some 0) 1 ceRow1
        ⟨⟨[⟨0,0,0⟩, ⟨0,1,0⟩, ⟨0,2,0⟩]⟩,
          [(1, some 0, some (mkRat 3 5)), (2, some 0, some (mkRat 2 5))]⟩ =
        .ok ⟨⟨[⟨0,0,0⟩, ⟨0,1,0⟩, ⟨0,2,0⟩, ⟨1,2,1⟩, ⟨2,1,1⟩]⟩,
          [(3, some 0, some (mkRat 9 25)), (1, some 0, some (mkRat 6 25))]⟩ := by
      with_unfolding_all rfl
    have s3 : stepT 2 (some 0) 2 ceRowC
        ⟨⟨[⟨0,0,0⟩, ⟨0,1,0⟩, ⟨0,2,0⟩, ⟨1,2,1⟩, ⟨2,1,1⟩]⟩,
          [(3, some 0, some (mkRat 9 25)), (1, some 0, some (mkRat 6 25))]⟩ =
        .ok ⟨⟨[⟨0,0,0⟩, ⟨0,1,0⟩, ⟨0,2,0⟩, ⟨1,2,1⟩, ⟨2,1,1⟩, ⟨3,1,2⟩]⟩,
          [(3, some (mkRat 63 500), some (mkRat 9 100)),
           (1, some (mkRat 21 250), some (mkRat 3 25))]⟩ := by
      with_unfolding_all rfl
    have s4 : stepT 2 (some 0) 3 ceRowC
        ⟨⟨[⟨0,0,0⟩, ⟨0,1,0⟩, ⟨0,2,0⟩, ⟨1,2,1⟩, ⟨2,1,1⟩, ⟨3,1,2⟩]⟩,
          [(3, some (mkRat 63 500), some (mkRat 9 100)),
           (1, some (mkRat 21 250), some (mkRat 3 25))]⟩ =
        .ok ⟨⟨[⟨0,0,0⟩, ⟨0,1,0⟩, ⟨0,2,0⟩, ⟨1,2,1⟩, ⟨2,1,1⟩, ⟨3,1,2⟩, ⟨3,2,3⟩, ⟨1,1,3⟩]⟩,
          [(1, some (mkRat 357 5000), some (mkRat 3 50)),
           (3, some (mkRat 189 2500), some (mkRat 441 10000))]⟩ := by
      with_unfolding_all rfl
    have s5 : stepT 2 (some 0) 4 ceRowC
        ⟨⟨[⟨0,0,0⟩, ⟨0,1,0⟩, ⟨0,2,0⟩, ⟨1,2,1⟩, ⟨2,1,1⟩, ⟨3,1,2⟩, ⟨3,2,3⟩, ⟨1,1,3⟩]⟩,
          [(1, some (mkRat 357 5000), some (mkRat 3 50)),
           (3, some (mkRat 189 2500), some (mkRat 441 10000))]⟩ =
        .ok ⟨⟨[⟨0,0,0⟩, ⟨0,1,0⟩, ⟨0,2,0⟩, ⟨1,2,1⟩, ⟨2,1,1⟩, ⟨3,1,2⟩, ⟨3,2,3⟩, ⟨1,1,3⟩]⟩,
          [(1, some (mkRat 4599 100000), some (mkRat 3 100)),
           (3, some (mkRat 8379 200000), some (mkRat 1053 40000))]⟩ := by
      with_unfolding_all rfl
    have hrun : runRows 2 (some 0) initState 0 ceNet =
        .ok (⟨⟨[⟨0,0,0⟩, ⟨0,1,0⟩, ⟨0,2,0⟩, ⟨1,2,1⟩, ⟨2,1,1⟩, ⟨3,1,2⟩, ⟨3,2,3⟩, ⟨1,1,3⟩]⟩,
          [(1, some (mkRat 4599 100000), some (mkRat 3 100)),
           (3, some (mkRat 8379 200000), some (mkRat 1053 40000))]⟩) := by
      unfold ceNet
      simp only [runRows, s1, s2, s3, s4, s5]
    unfold bestScore
    rw [hrun]
    with_unfolding_all rfl

/-- C7 (amended): for a single-timestep network, every beam size K ≥ 1 and
every threshold, the winning score with beam size 2K equals the winning score
with beam size K (deterministic first-seen tie-breaking): with only one
pruning round, the top-1 candidate survives any top-K cut. -/
theorem beam_widening_single (row : List R) (K : Nat) (θ : R) (hK : 1 ≤ K) :
    bestScore [row] (2 * K) θ = bestScore [row] K θ := by
  have key : ∀ K2 : Nat, 1 ≤ K2 →
      bestScore [row] K2 θ = bestScore [row] 1 θ := by
    intro K2 hK2
    simp only [bestScore, runRows, stepT]
    cases hemp : (expand θ row 0 initState.1 initState.2).2.isEmpty with
    | true => simp [hemp]
    | false =>
      cases hnan : (expand θ row 0 initState.1 initState.2).2.any
          (fun e => (total e).isNone) with
      | true => simp [hemp, hnan]
      | false =>
        have hne : (expand θ row 0 initState.1 initState.2).2 ≠ [] := by
          intro h0
          rw [h0] at hemp
          simp at hemp
        obtain ⟨m, r, hp⟩ : ∃ m r,
            pickBestBy total (expand θ row 0 initState.1 initState.2).2 =
              some (m, r) := by
          cases hq : pickBestBy total (expand θ row 0 initState.1 initState.2).2 with
          | none => exact absurd ((pickBestBy_none total _).mp hq) hne
          | some pr =>
            obtain ⟨a, b⟩ := pr
            exact ⟨a, b, rfl⟩
        have hnn : ∀ x ∈ (expand θ row 0 initState.1 initState.2).2,
            (total x).isNone = false := by
          intro x hx
          have hq := List.any_eq_false.mp hnan x hx
          cases ht : total x with
          | none => rw [ht] at hq; simp at hq
          | some a => simp
        obtain ⟨rA, hA⟩ := pickBest_topKBy total K2 _ m r hnn hK2 hp
        obtain ⟨rB, hB⟩ := pickBest_topKBy total 1 _ m r hnn (by omega) hp
        simp [hemp, hnan, pickBest, hA, hB]
  rw [key (2 * K) (by omega), key K hK]

theorem beam_widening_single_witness :
    1 ≤ 1 ∧ bestScore [[some 0, some 1]] (2 * 1) (some 0) =
      bestScore [[some 0, some 1]] 1 (some 0) :=
  ⟨by decide, beam_widening_single [some 0, some 1] 1 (some 0) (by decide)⟩


theorem routeLabel_skip (θ : R) (row : List R) (t : Nat) (e : BeamEntry)
    (acc : SuffixTree × List BeamEntry) (k : Nat)
    (h : rgt (row.getD k (some 0)) θ = false) :
    routeLabel θ row t e acc k = acc := by
  have hc : ¬(rgt (row.getD k (some 0)) θ = true) := by
    rw [h]
    exact Bool.false_ne_true
  simp only [routeLabel]
  rw [if_neg hc]

theorem expandEntry_oneHot (q : ℚ) (hq0 : 0 ≤ q) (L a t : Nat) (haL : a ≤ L)
    (acc : SuffixTree × List BeamEntry) (e : BeamEntry) :
    expandEntry (some q) (oneHotRow L a) t acc e =
      routeLabel (some q) (oneHotRow L a) t e acc a := by
  unfold expandEntry
  rw [oneHotRow_length]
  refine foldl_single (routeLabel (some q) (oneHotRow L a) t e) (L + 1) a
    (by omega) ?_ acc
  intro b2 k hk hka
  apply routeLabel_skip
  rw [oneHotRow_getD]
  have : ¬(k = a ∧ k < L + 1) := fun hh => hka hh.1
  rw [if_neg this]
  simp [rgt, not_lt.mpr hq0]

theorem routeLabel_blankRow_good (q : ℚ) (hq1 : q < 1) (L t c2 : Nat)
    (tr : SuffixTree) (nx : List BeamEntry) :
    routeLabel (some q) (oneHotRow L 0) t (c2, some 0, some 1) (tr, nx) 0 =
      (tr, addPb nx c2 (some 1)) := by
  have hp : (oneHotRow L 0).getD 0 (some 0) = some 1 := by
    rw [oneHotRow_getD]
    simp
  have hgt : rgt (some 1) (some q) = true := by simp [rgt, hq1]
  have hv : rmul (radd ((some 0 : R)) (some 1)) (some 1) = some 1 := by
    norm_num [radd, rmul]
  simp only [routeLabel, hp, hgt, hv, eq_self_iff_true, if_true]

theorem routeLabel_blankRow_zero (q : ℚ) (hq1 : q < 1) (L t : Nat)
    (tr : SuffixTree) (nx : List BeamEntry) (d : BeamEntry)
    (hd : d.2.1 = some 0 ∧ d.2.2 = some 0) :
    routeLabel (some q) (oneHotRow L 0) t d (tr, nx) 0 =
      (tr, addPb nx d.1 (some 0)) := by
  obtain ⟨n1, pb, nb⟩ := d
  simp only at hd
  rw [hd.1, hd.2]
  have hp : (oneHotRow L 0).getD 0 (some 0) = some 1 := by
    rw [oneHotRow_getD]
    simp
  have hgt : rgt (some 1) (some q) = true := by simp [rgt, hq1]
  have hv : rmul (radd ((some 0 : R)) (some 0)) (some 1) = some 0 := by
    norm_num [radd, rmul]
  simp only [routeLabel, hp, hgt, hv, eq_self_iff_true, if_true]

theorem routeLabel_labelRow_good (q : ℚ) (hq1 : q < 1) (L a t c : Nat)
    (ha : 1 ≤ a) (haL : a ≤ L) (tr : SuffixTree) (nx : List BeamEntry) :
    routeLabel (some q) (oneHotRow L a) t (c, some 1, some 0) (tr, nx) a =
      ((get_or_create_child tr c a t).1,
        addNb (if a = label_at tr c then addNb nx c (some 0) else nx)
          (get_or_create_child tr c a t).2 (some 1)) := by
  have hp : (oneHotRow L a).getD a (some 0) = some 1 := by
    rw [oneHotRow_getD, if_pos ⟨rfl, by omega⟩]
  have hgt : rgt (some 1) (some q) = true := by simp [rgt, hq1]
  have hv0 : rmul ((some 0 : R)) (some 1) = some 0 := by norm_num [rmul]
  have hv1 : rmul ((some 1 : R)) (some 1) = some 1 := by norm_num [rmul]
  have hv2 : rmul (radd ((some 1 : R)) (some 0)) (some 1) = some 1 := by
    norm_num [radd, rmul]
  have hguard : rgt ((some 1 : R)) (some 0) = true := by norm_num [rgt]
  have ha0 : ¬(a = 0) := by omega
  by_cases hrep : a = label_at tr c
  · simp only [routeLabel, hp, hgt, hv0, hv1, eq_self_iff_true, if_true,
      if_neg ha0, if_pos hrep, if_pos hguard]
  · simp only [routeLabel, hp, hgt, hv2, eq_self_iff_true, if_true,
      if_neg ha0, if_neg hrep]

theorem routeLabel_labelRow_zero (q : ℚ) (hq1 : q < 1) (L a t : Nat)
    (ha : 1 ≤ a) (haL : a ≤ L) (tr : SuffixTree) (nx : List BeamEntry)
    (d : BeamEntry) (hd : d.2.1 = some 0 ∧ d.2.2 = some 0) :
    routeLabel (some q) (oneHotRow L a) t d (tr, nx) a =
      if a = label_at tr d.1 then (tr, addNb nx d.1 (some 0))
      else ((get_or_create_child tr d.1 a t).1,
        addNb nx (get_or_create_child tr d.1 a t).2 (some 0)) := by
  obtain ⟨n1, pb, nb⟩ := d
  simp only at hd
  rw [hd.1, hd.2]
  have hp : (oneHotRow L a).getD a (some 0) = some 1 := by
    rw [oneHotRow_getD, if_pos ⟨rfl, by omega⟩]
  have hgt : rgt (some 1) (some q) = true := by simp [rgt, hq1]
  have hv0 : rmul ((some 0 : R)) (some 1) = some 0 := by norm_num [rmul]
  have hv2 : rmul (radd ((some 0 : R)) (some 0)) (some 1) = some 0 := by
    norm_num [radd, rmul]
  have hguard : rgt ((some 0 : R)) (some 0) = false := by norm_num [rgt]
  have ha0 : ¬(a = 0) := by omega
  have hng : ¬(rgt ((some 0 : R)) (some 0) = true) := by simp [hguard]
  by_cases hrep : a = label_at tr n1
  · simp only [routeLabel, hp, hgt, hv0, eq_self_iff_true, if_true,
      if_neg ha0, if_pos hrep, if_neg hng]
  · simp only [routeLabel, hp, hgt, hv2, eq_self_iff_true, if_true,
      if_neg ha0, if_neg hrep]

theorem gocc_child (tr : SuffixTree) (p lab t : Nat) (hwf : TreeWF tr)
    (hlab : 1 ≤ lab) :
    parent_of (get_or_create_child tr p lab t).1
      (get_or_create_child tr p lab t).2 = p ∧
    label_at (get_or_create_child tr p lab t).1
      (get_or_create_child tr p lab t).2 = lab ∧
    1 ≤ (get_or_create_child tr p lab t).2 ∧
    (get_or_create_child tr p lab t).2 <
      (get_or_create_child tr p lab t).1.nodes.length := by
  cases hfind : tr.nodes.findIdx? (fun n => n.parent == p && n.label == lab) with
  | some i =>
    simp only [get_or_create_child, hfind]
    rw [List.findIdx?_eq_some_iff_getElem] at hfind
    obtain ⟨hi, hpred, -⟩ := hfind
    simp only [Bool.and_eq_true, beq_iff_eq] at hpred
    have hgetD : tr.nodes.getD i rootNode = tr.nodes[i] := by
      rw [List.getD_eq_getElem?_getD, List.getElem?_eq_getElem hi]
      rfl
    have hpar : parent_of tr i = p := by
      unfold parent_of
      rw [hgetD]
      exact hpred.1
    have hlabel : label_at tr i = lab := by
      unfold label_at
      rw [hgetD]
      exact hpred.2
    have hi1 : 1 ≤ i := by
      by_contra hi0
      have : i = 0 := by omega
      subst this
      have : label_at tr 0 = 0 := by
        unfold label_at
        rw [hwf.root_eq]
        rfl
      omega
    exact ⟨hpar, hlabel, hi1, hi⟩
  | none =>
    simp only [get_or_create_child, hfind]
    have hlen0 : 0 < tr.nodes.length := by
      cases hn : tr.nodes with
      | nil => exact absurd hn hwf.ne
      | cons x l => simp [hn]
    refine ⟨?_, ?_, by omega, by simp⟩
    · unfold parent_of
      rw [getD_append_self]
    · unfold label_at
      rw [getD_append_self]

theorem addPb_one (n : Nat) :
    ∀ nx : List BeamEntry, (∀ d ∈ nx, d.2.1 = some 0 ∧ d.2.2 = some 0) →
      (n, some 1, some 0) ∈ addPb nx n (some 1) ∧
      ∀ d ∈ addPb nx n (some 1), d = (n, some 1, some 0) ∨
        (d.2.1 = some 0 ∧ d.2.2 = some 0) := by
  intro nx
  induction nx with
  | nil =>
    intro _
    simp [addPb]
  | cons e l ih =>
    intro hz
    obtain ⟨n1, pb, nb⟩ := e
    have hznb := hz _ (List.mem_cons_self _ _)
    simp only at hznb
    by_cases he : n1 = n
    · subst he
      simp only [addPb, if_pos rfl]
      rw [hznb.1, hznb.2]
      have hr : radd ((some 0 : R)) (some 1) = some 1 := by norm_num [radd]
      rw [hr]
      refine ⟨List.mem_cons_self _ _, ?_⟩
      intro d hd
      rcases List.mem_cons.mp hd with h1 | h1
      · exact Or.inl h1
      · exact Or.inr (hz d (List.mem_cons_of_mem _ h1))
    · simp only [addPb, if_neg he]
      obtain ⟨ih1, ih2⟩ := ih (fun d hd => hz d (List.mem_cons_of_mem _ hd))
      refine ⟨List.mem_cons_of_mem _ ih1, ?_⟩
      intro d hd
      rcases List.mem_cons.mp hd with h1 | h1
      · subst h1
        exact Or.inr hznb
      · exact ih2 d h1

theorem addNb_one (n : Nat) :
    ∀ nx : List BeamEntry, (∀ d ∈ nx, d.2.1 = some 0 ∧ d.2.2 = some 0) →
      (n, some 0, some 1) ∈ addNb nx n (some 1) ∧
      ∀ d ∈ addNb nx n (some 1), d = (n, some 0, some 1) ∨
        (d.2.1 = some 0 ∧ d.2.2 = some 0) := by
  intro nx
  induction nx with
  | nil =>
    intro _
    simp [addNb]
  | cons e l ih =>
    intro hz
    obtain ⟨n1, pb, nb⟩ := e
    have hznb := hz _ (List.mem_cons_self _ _)
    simp only at hznb
    by_cases he : n1 = n
    · subst he
      simp only [addNb, if_pos rfl]
      rw [hznb.1, hznb.2]
      have hr : radd ((some 0 : R)) (some 1) = some 1 := by norm_num [radd]
      rw [hr]
      refine ⟨List.mem_cons_self _ _, ?_⟩
      intro d hd
      rcases List.mem_cons.mp hd with h1 | h1
      · exact Or.inl h1
      · exact Or.inr (hz d (List.mem_cons_of_mem _ h1))
    · simp only [addNb, if_neg he]
      obtain ⟨ih1, ih2⟩ := ih (fun d hd => hz d (List.mem_cons_of_mem _ hd))
      refine ⟨List.mem_cons_of_mem _ ih1, ?_⟩
      intro d hd
      rcases List.mem_cons.mp hd with h1 | h1
      · subst h1
        exact Or.inr hznb
      · exact ih2 d h1

theorem routeLabel_keys (θ : R) (row : List R) (t : Nat) (e : BeamEntry)
    (acc : SuffixTree × List BeamEntry) (k : Nat) (h : KeysOk acc.2) :
    KeysOk (routeLabel θ row t e acc k).2 := by
  simp only [routeLabel]
  split_ifs with h1 h2 h3 h4
  · exact addPb_keys _ _ _ h
  · exact addNb_keys _ _ _ (addNb_keys _ _ _ h)
  · exact addNb_keys _ _ _ h
  · exact addNb_keys _ _ _ h
  · exact h

theorem expandEntry_keys (θ : R) (row : List R) (t : Nat) (e : BeamEntry) :
    ∀ (ks : List Nat) (acc : SuffixTree × List BeamEntry), KeysOk acc.2 →
      KeysOk (ks.foldl (routeLabel θ row t e) acc).2 := by
  intro ks
  induction ks with
  | nil => intro acc h; exact h
  | cons k ks ih =>
    intro acc h
    simp only [List.foldl_cons]
    exact ih _ (routeLabel_keys θ row t e acc k h)

theorem expand_keys (θ : R) (row : List R) (t : Nat) :
    ∀ (beam : List BeamEntry) (acc : SuffixTree × List BeamEntry), KeysOk acc.2 →
      KeysOk (beam.foldl (expandEntry θ row t) acc).2 := by
  intro beam
  induction beam with
  | nil => intro acc h; exact h
  | cons e beam ih =>
    intro acc h
    simp only [List.foldl_cons]
    exact ih _ (expandEntry_keys θ row t e _ acc h)

theorem path_stable (t1 t2 : SuffixTree) (hwf1 : TreeWF t1) (hwf2 : TreeWF t2)
    (hext : Extends t1 t2) :
    ∀ i, i < t1.nodes.length → t2.path i = t1.path i := by
  intro i
  induction i using Nat.strong_induction_on with
  | _ i ih =>
    intro hi
    cases i with
    | zero => simp [SuffixTree.path, pathAux]
    | succ n =>
      have hp1 := hwf1.parent_lt (n + 1) (by omega) hi
      have hi2 : n + 1 < t2.nodes.length := lt_of_lt_of_le hi hext.len_le
      rw [path_rec t2 hwf2 (n + 1) (by omega) hi2,
        path_rec t1 hwf1 (n + 1) (by omega) hi,
        hext.parent_of_eq (n + 1) hi, hext.label_at_eq (n + 1) hi,
        hext.time_at_eq (n + 1) hi,
        ih (parent_of t1 (n + 1)) (by omega) (by omega)]

theorem expandFold_zero_label (q : ℚ) (hq0 : 0 ≤ q) (hq1 : q < 1) (L a t : Nat)
    (ha : 1 ≤ a) (haL : a ≤ L) :
    ∀ (pre : List BeamEntry) (tr : SuffixTree) (nx : List BeamEntry),
      (∀ d ∈ pre, d.2.1 = some 0 ∧ d.2.2 = some 0) →
      (∀ d ∈ nx, d.2.1 = some 0 ∧ d.2.2 = some 0) →
      ∀ d ∈ (pre.foldl (expandEntry (some q) (oneHotRow L a) t) (tr, nx)).2,
        d.2.1 = some 0 ∧ d.2.2 = some 0 := by
  intro pre
  induction pre with
  | nil => intro tr nx _ hnx; exact hnx
  | cons e pre ih =>
    intro tr nx hpre hnx
    simp only [List.foldl_cons]
    rw [expandEntry_oneHot q hq0 L a t haL,
      routeLabel_labelRow_zero q hq1 L a t ha haL tr nx e
        (hpre e (List.mem_cons_self _ _))]
    have hpre2 : ∀ d ∈ pre, d.2.1 = some 0 ∧ d.2.2 = some 0 :=
      fun d hd => hpre d (List.mem_cons_of_mem _ hd)
    by_cases hrep : a = label_at tr e.1
    · rw [if_pos hrep]
      refine ih tr _ hpre2 ?_
      intro d hd
      rcases (mem_addNb_zero nx e.1).2 d hd with h1 | h1
      · exact hnx d h1
      · rw [h1]
        exact ⟨rfl, rfl⟩
    · rw [if_neg hrep]
      refine ih _ _ hpre2 ?_
      intro d hd
      rcases (mem_addNb_zero nx (get_or_create_child tr e.1 a t).2).2 d hd with h1 | h1
      · exact hnx d h1
      · rw [h1]
        exact ⟨rfl, rfl⟩

theorem expandFold_zero_blank (q : ℚ) (hq0 : 0 ≤ q) (hq1 : q < 1) (L t : Nat) :
    ∀ (pre : List BeamEntry) (tr : SuffixTree) (nx : List BeamEntry),
      (∀ d ∈ pre, d.2.1 = some 0 ∧ d.2.2 = some 0) →
      (∀ d ∈ nx, d.2.1 = some 0 ∧ d.2.2 = some 0) →
      (pre.foldl (expandEntry (some q) (oneHotRow L 0) t) (tr, nx)).1 = tr ∧
      ∀ d ∈ (pre.foldl (expandEntry (some q) (oneHotRow L 0) t) (tr, nx)).2,
        d.2.1 = some 0 ∧ d.2.2 = some 0 := by
  intro pre
  induction pre with
  | nil => intro tr nx _ hnx; exact ⟨rfl, hnx⟩
  | cons e pre ih =>
    intro tr nx hpre hnx
    simp only [List.foldl_cons]
    rw [expandEntry_oneHot q hq0 L 0 t (by omega),
      routeLabel_blankRow_zero q hq1 L t tr nx e (hpre e (List.mem_cons_self _ _))]
    refine ih tr _ (fun d hd => hpre d (List.mem_cons_of_mem _ hd)) ?_
    intro d hd
    rcases (mem_addPb_zero nx e.1).2 d hd with h1 | h1
    · exact hnx d h1
    · rw [h1]
      exact ⟨rfl, rfl⟩

theorem expandFold_post_label (q : ℚ) (hq0 : 0 ≤ q) (hq1 : q < 1)
    (L a t c2 : Nat) (ha : 1 ≤ a) (haL : a ≤ L) :
    ∀ (post : List BeamEntry) (tr : SuffixTree) (nx : List BeamEntry),
      (∀ d ∈ post, d.2.1 = some 0 ∧ d.2.2 = some 0) →
      (c2, some 0, some 1) ∈ nx →
      (∀ d ∈ nx, ZG c2 0 1 d) →
      (c2, some 0, some 1) ∈
        (post.foldl (expandEntry (some q) (oneHotRow L a) t) (tr, nx)).2 ∧
      ∀ d ∈ (post.foldl (expandEntry (some q) (oneHotRow L a) t) (tr, nx)).2,
        ZG c2 0 1 d := by
  intro post
  induction post with
  | nil => intro tr nx _ hm hZ; exact ⟨hm, hZ⟩
  | cons e post ih =>
    intro tr nx hpost hm hZ
    simp only [List.foldl_cons]
    rw [expandEntry_oneHot q hq0 L a t haL,
      routeLabel_labelRow_zero q hq1 L a t ha haL tr nx e
        (hpost e (List.mem_cons_self _ _))]
    have hpost2 : ∀ d ∈ post, d.2.1 = some 0 ∧ d.2.2 = some 0 :=
      fun d hd => hpost d (List.mem_cons_of_mem _ hd)
    by_cases hrep : a = label_at tr e.1
    · rw [if_pos hrep]
      refine ih tr _ hpost2 ((mem_addNb_zero nx e.1).1 _ hm) ?_
      intro d hd
      rcases (mem_addNb_zero nx e.1).2 d hd with h1 | h1
      · exact hZ d h1
      · rw [h1]
        exact Or.inr ⟨rfl, rfl⟩
    · rw [if_neg hrep]
      refine ih _ _ hpost2
        ((mem_addNb_zero nx (get_or_create_child tr e.1 a t).2).1 _ hm) ?_
      intro d hd
      rcases (mem_addNb_zero nx (get_or_create_child tr e.1 a t).2).2 d hd with h1 | h1
      · exact hZ d h1
      · rw [h1]
        exact Or.inr ⟨rfl, rfl⟩

theorem expandFold_post_blank (q : ℚ) (hq0 : 0 ≤ q) (hq1 : q < 1)
    (L t c2 : Nat) :
    ∀ (post : List BeamEntry) (tr : SuffixTree) (nx : List BeamEntry),
      (∀ d ∈ post, d.2.1 = some 0 ∧ d.2.2 = some 0) →
      (c2, some 1, some 0) ∈ nx →
      (∀ d ∈ nx, ZG c2 1 0 d) →
      (post.foldl (expandEntry (some q) (oneHotRow L 0) t) (tr, nx)).1 = tr ∧
      (c2, some 1, some 0) ∈
        (post.foldl (expandEntry (some q) (oneHotRow L 0) t) (tr, nx)).2 ∧
      ∀ d ∈ (post.foldl (expandEntry (some q) (oneHotRow L 0) t) (tr, nx)).2,
        ZG c2 1 0 d := by
  intro post
  induction post with
  | nil => intro tr nx _ hm hZ; exact ⟨rfl, hm, hZ⟩
  | cons e post ih =>
    intro tr nx hpost hm hZ
    simp only [List.foldl_cons]
    rw [expandEntry_oneHot q hq0 L 0 t (by omega),
      routeLabel_blankRow_zero q hq1 L t tr nx e (hpost e (List.mem_cons_self _ _))]
    refine ih tr _ (fun d hd => hpost d (List.mem_cons_of_mem _ hd))
      ((mem_addPb_zero nx e.1).1 _ hm) ?_
    intro d hd
    rcases (mem_addPb_zero nx e.1).2 d hd with h1 | h1
    · exact hZ d h1
    · rw [h1]
      exact Or.inr ⟨rfl, rfl⟩

theorem topKBy_pairwise {α : Type _} (f : α → R) (rel : α → α → Prop)
    (hsym : ∀ a b, rel a b → rel b a) :
    ∀ (n : Nat) (l : List α), l.Pairwise rel → (topKBy f n l).Pairwise rel := by
  intro n
  induction n with
  | zero => intro l _; simp [topKBy]
  | succ m ih =>
    intro l hl
    cases hp : pickBestBy f l with
    | none => simp [topKBy, hp]
    | some pr =>
      obtain ⟨e, r⟩ := pr
      simp only [topKBy, hp]
      have hperm := pickBestBy_perm f l e r hp
      have her : (e :: r).Pairwise rel :=
        (hperm.pairwise_iff (fun h12 => hsym _ _ h12)).mp hl
      obtain ⟨hhead, htail⟩ := List.pairwise_cons.mp her
      exact List.pairwise_cons.mpr
        ⟨fun x hx => hhead x (topKBy_mem f m r x hx), ih r htail⟩

theorem expand_oneHot_label (q : ℚ) (hq0 : 0 ≤ q) (hq1 : q < 1) (L a t c : Nat)
    (ha : 1 ≤ a) (haL : a ≤ L) (tr : SuffixTree) (beam : List BeamEntry)
    (hinv : TreeInv (t + 1) tr) (hc : c < tr.nodes.length)
    (hmem : (c, some 1, some 0) ∈ beam)
    (hZ : ∀ d ∈ beam, ZG c 1 0 d) (hkeys : KeysOk beam)
    (hvalid : ∀ e ∈ beam, e.1 < tr.nodes.length) :
    ∃ c2,
      (c2, some 0, some 1) ∈ (expand (some q) (oneHotRow L a) t tr beam).2 ∧
      (∀ d ∈ (expand (some q) (oneHotRow L a) t tr beam).2, ZG c2 0 1 d) ∧
      parent_of (expand (some q) (oneHotRow L a) t tr beam).1 c2 = c ∧
      label_at (expand (some q) (oneHotRow L a) t tr beam).1 c2 = a ∧
      1 ≤ c2 ∧
      c2 < (expand (some q) (oneHotRow L a) t tr beam).1.nodes.length := by
  obtain ⟨pre, post, hsplit⟩ := List.append_of_mem hmem
  subst hsplit
  obtain ⟨hkpre, hkcons, hkcross⟩ := List.pairwise_append.mp hkeys
  have hprezero : ∀ d ∈ pre, d.2.1 = some 0 ∧ d.2.2 = some 0 := by
    intro d hd
    rcases hZ d (by simp [hd]) with h1 | h1
    · exfalso
      have h2 := hkcross d hd (c, some 1, some 0) (List.mem_cons_self _ _)
      rw [h1] at h2
      exact h2 rfl
    · exact h1
  have hpostzero : ∀ d ∈ post, d.2.1 = some 0 ∧ d.2.2 = some 0 := by
    intro d hd
    rcases hZ d (by simp [hd]) with h1 | h1
    · exfalso
      have h2 := (List.pairwise_cons.mp hkcons).1 d hd
      rw [h1] at h2
      exact h2 rfl
    · exact h1
  unfold expand
  rw [List.foldl_append, List.foldl_cons]
  obtain ⟨hextA, hinvA, hvalidA⟩ := expandFold_inv (some q) (oneHotRow L a) t pre
    tr tr [] hinv (Extends.rfl tr) (fun e he => hvalid e (by simp [he])) (by simp)
  have hAzero : ∀ d ∈ (pre.foldl (expandEntry (some q) (oneHotRow L a) t) (tr, [])).2,
      d.2.1 = some 0 ∧ d.2.2 = some 0 :=
    expandFold_zero_label q hq0 hq1 L a t ha haL pre tr [] hprezero (by simp)
  cases hAeq : pre.foldl (expandEntry (some q) (oneHotRow L a) t) (tr, []) with
  | mk trA nxA =>
  rw [hAeq] at hextA hinvA hvalidA hAzero
  simp only at hextA hinvA hvalidA hAzero
  have hcA : c < trA.nodes.length := lt_of_lt_of_le hc hextA.len_le
  obtain ⟨hgocc_ext, hgocc_inv, hgocc_lt⟩ := gocc_spec trA c a t (t + 1) hinvA hcA rfl
  obtain ⟨hgp, hgl, hg1, hglt⟩ := gocc_child trA c a t hinvA.wf ha
  rw [expandEntry_oneHot q hq0 L a t haL,
    routeLabel_labelRow_good q hq1 L a t c ha haL trA nxA]
  have hvzero : ∀ d ∈ (if a = label_at trA c then addNb nxA c (some 0) else nxA),
      d.2.1 = some 0 ∧ d.2.2 = some 0 := by
    by_cases hrep : a = label_at trA c
    · rw [if_pos hrep]
      intro d hd
      rcases (mem_addNb_zero nxA c).2 d hd with h1 | h1
      · exact hAzero d h1
      · rw [h1]
        exact ⟨rfl, rfl⟩
    · rw [if_neg hrep]
      exact hAzero
  obtain ⟨hgm, hgZ⟩ := addNb_one (get_or_create_child trA c a t).2 _ hvzero
  have hvkeys : ∀ d ∈ addNb (if a = label_at trA c then addNb nxA c (some 0) else nxA)
      (get_or_create_child trA c a t).2 (some 1),
      d.1 < (get_or_create_child trA c a t).1.nodes.length := by
    intro d hd
    rcases fst_mem_addNb _ _ _ d hd with h1 | ⟨d2, hd2, h2⟩
    · rw [h1]
      exact hglt
    · rw [h2]
      by_cases hrep : a = label_at trA c
      · rw [if_pos hrep] at hd2
        rcases fst_mem_addNb nxA c _ d2 hd2 with h3 | ⟨d3, hd3, h3⟩
        · rw [h3]
          exact lt_of_lt_of_le hcA hgocc_ext.len_le
        · rw [h3]
          exact lt_of_lt_of_le (hvalidA d3 hd3) hgocc_ext.len_le
      · rw [if_neg hrep] at hd2
        exact lt_of_lt_of_le (hvalidA d2 hd2) hgocc_ext.len_le
  obtain ⟨hextP, hinvP, hvalidP⟩ := expandFold_inv (some q) (oneHotRow L a) t post
    tr (get_or_create_child trA c a t).1 _ hgocc_inv
    (hextA.trans hgocc_ext) (fun e he => hvalid e (by simp [he])) hvkeys
  obtain ⟨hfm, hfZ⟩ := expandFold_post_label q hq0 hq1 L a t
    (get_or_create_child trA c a t).2 ha haL post
    (get_or_create_child trA c a t).1 _ hpostzero hgm hgZ
  refine ⟨(get_or_create_child trA c a t).2, hfm, hfZ, ?_, ?_, hg1, ?_⟩
  · rw [hextP.parent_of_eq _ hglt]
    exact hgp
  · rw [hextP.label_at_eq _ hglt]
    exact hgl
  · exact lt_of_lt_of_le hglt hextP.len_le

theorem expand_oneHot_blank (q : ℚ) (hq0 : 0 ≤ q) (hq1 : q < 1) (L t c2 : Nat)
    (tr : SuffixTree) (beam : List BeamEntry)
    (hmem : (c2, some 0, some 1) ∈ beam)
    (hZ : ∀ d ∈ beam, ZG c2 0 1 d) (hkeys : KeysOk beam) :
    (expand (some q) (oneHotRow L 0) t tr beam).1 = tr ∧
    (c2, some 1, some 0) ∈ (expand (some q) (oneHotRow L 0) t tr beam).2 ∧
    ∀ d ∈ (expand (some q) (oneHotRow L 0) t tr beam).2, ZG c2 1 0 d := by
  obtain ⟨pre, post, hsplit⟩ := List.append_of_mem hmem
  subst hsplit
  obtain ⟨hkpre, hkcons, hkcross⟩ := List.pairwise_append.mp hkeys
  have hprezero : ∀ d ∈ pre, d.2.1 = some 0 ∧ d.2.2 = some 0 := by
    intro d hd
    rcases hZ d (by simp [hd]) with h1 | h1
    · exfalso
      have h2 := hkcross d hd (c2, some 0, some 1) (List.mem_cons_self _ _)
      rw [h1] at h2
      exact h2 rfl
    · exact h1
  have hpostzero : ∀ d ∈ post, d.2.1 = some 0 ∧ d.2.2 = some 0 := by
    intro d hd
    rcases hZ d (by simp [hd]) with h1 | h1
    · exfalso
      have h2 := (List.pairwise_cons.mp hkcons).1 d hd
      rw [h1] at h2
      exact h2 rfl
    · exact h1
  unfold expand
  rw [List.foldl_append, List.foldl_cons]
  obtain ⟨hAtree, hAzero⟩ :=
    expandFold_zero_blank q hq0 hq1 L t pre tr [] hprezero (by simp)
  cases hAeq : pre.foldl (expandEntry (some q) (oneHotRow L 0) t) (tr, []) with
  | mk trA nxA =>
  rw [hAeq] at hAtree hAzero
  simp only at hAtree hAzero
  subst hAtree
  rw [expandEntry_oneHot q hq0 L 0 t (by omega),
    routeLabel_blankRow_good q hq1 L t c2 trA nxA]
  obtain ⟨hgm, hgZ⟩ := addPb_one c2 nxA hAzero
  obtain ⟨hftree, hfm, hfZ⟩ := expandFold_post_blank q hq0 hq1 L t c2 post trA _
    hpostzero hgm hgZ
  exact ⟨hftree, hfm, hfZ⟩

theorem stepT_oneHot_label (n : Nat) (q : ℚ) (hq0 : 0 ≤ q) (hq1 : q < 1)
    (L a t c : Nat) (ha : 1 ≤ a) (haL : a ≤ L)
    (st : SuffixTree × List BeamEntry)
    (hinv : TreeInv t st.1) (hc : c < st.1.nodes.length)
    (hmem : (c, some 1, some 0) ∈ st.2)
    (hZ : ∀ d ∈ st.2, ZG c 1 0 d) (hkeys : KeysOk st.2)
    (hvalid : ∀ e ∈ st.2, e.1 < st.1.nodes.length) :
    ∃ st2 c2, stepT (n + 1) (some q) t (oneHotRow L a) st = .ok st2 ∧
      TreeInv (t + 1) st2.1 ∧ Extends st.1 st2.1 ∧
      (c2, some 0, some 1) ∈ st2.2 ∧
      (∀ d ∈ st2.2, ZG c2 0 1 d) ∧ KeysOk st2.2 ∧
      (∀ e ∈ st2.2, e.1 < st2.1.nodes.length) ∧
      parent_of st2.1 c2 = c ∧ label_at st2.1 c2 = a ∧
      1 ≤ c2 ∧ c2 < st2.1.nodes.length := by
  obtain ⟨c2, hm2, hZ2, hpar, hlab, h1c2, hc2len⟩ :=
    expand_oneHot_label q hq0 hq1 L a t c ha haL st.1 st.2
      (hinv.mono (Nat.le_succ t)) hc hmem hZ hkeys hvalid
  obtain ⟨hext, hinvE, hvalidE⟩ :=
    expand_inv (some q) (oneHotRow L a) t st.1 st.2 (hinv.mono (Nat.le_succ t))
      hvalid
  have hne : (expand (some q) (oneHotRow L a) t st.1 st.2).2 ≠ [] := by
    intro h0
    rw [h0] at hm2
    cases hm2
  have hempty : (expand (some q) (oneHotRow L a) t st.1 st.2).2.isEmpty = false := by
    cases hl : (expand (some q) (oneHotRow L a) t st.1 st.2).2 with
    | nil => exact absurd hl hne
    | cons x l => simp
  have hnan : ((expand (some q) (oneHotRow L a) t st.1 st.2).2.any
      (fun e => (total e).isNone)) = false := by
    rw [List.any_eq_false]
    intro x hx
    rcases hZ2 x hx with h1 | h1
    · rw [h1, total_good]
      simp
    · rw [total_zero x h1]
      simp
  have hstep : stepT (n + 1) (some q) t (oneHotRow L a) st =
      .ok ((expand (some q) (oneHotRow L a) t st.1 st.2).1,
        topKBy total (n + 1) (expand (some q) (oneHotRow L a) t st.1 st.2).2) := by
    simp only [stepT, hempty, hnan]
    rfl
  obtain ⟨r, hpick, hrsub⟩ := pick_good_val c2 0 1 (by norm_num)
    (expand (some q) (oneHotRow L a) t st.1 st.2).2 hZ2 hm2
  have htop : topKBy total (n + 1) (expand (some q) (oneHotRow L a) t st.1 st.2).2 =
      (c2, some 0, some 1) :: topKBy total n r := by
    simp only [topKBy, pickBest, hpick]
  have hkexp : KeysOk (expand (some q) (oneHotRow L a) t st.1 st.2).2 :=
    expand_keys (some q) (oneHotRow L a) t st.2 (st.1, []) List.Pairwise.nil
  refine ⟨((expand (some q) (oneHotRow L a) t st.1 st.2).1,
    topKBy total (n + 1) (expand (some q) (oneHotRow L a) t st.1 st.2).2), c2,
    hstep, hinvE, hext, ?_, ?_, ?_, ?_, hpar, hlab, h1c2, hc2len⟩
  · rw [htop]
    exact List.mem_cons_self _ _
  · intro d hd
    rw [htop] at hd
    rcases List.mem_cons.mp hd with h1 | h1
    · exact Or.inl h1
    · exact hZ2 d (hrsub.subset (topKBy_mem total n r d h1))
  · exact topKBy_pairwise total _ (fun x y hxy h2 => hxy h2.symm) (n + 1) _ hkexp
  · intro e he
    exact hvalidE e (topKBy_mem total (n + 1) _ e he)

theorem stepT_oneHot_blank (n : Nat) (q : ℚ) (hq0 : 0 ≤ q) (hq1 : q < 1)
    (L t c2 : Nat) (st : SuffixTree × List BeamEntry)
    (hinv : TreeInv t st.1)
    (hmem : (c2, some 0, some 1) ∈ st.2)
    (hZ : ∀ d ∈ st.2, ZG c2 0 1 d) (hkeys : KeysOk st.2)
    (hvalid : ∀ e ∈ st.2, e.1 < st.1.nodes.length) :
    ∃ st3, stepT (n + 1) (some q) t (oneHotRow L 0) st = .ok st3 ∧
      st3.1 = st.1 ∧
      (c2, some 1, some 0) ∈ st3.2 ∧
      (∀ d ∈ st3.2, ZG c2 1 0 d) ∧ KeysOk st3.2 ∧
      (∀ e ∈ st3.2, e.1 < st3.1.nodes.length) := by
  obtain ⟨htree, hm2, hZ2⟩ :=
    expand_oneHot_blank q hq0 hq1 L t c2 st.1 st.2 hmem hZ hkeys
  obtain ⟨hext, hinvE, hvalidE⟩ :=
    expand_inv (some q) (oneHotRow L 0) t st.1 st.2 (hinv.mono (Nat.le_succ t))
      hvalid
  have hne : (expand (some q) (oneHotRow L 0) t st.1 st.2).2 ≠ [] := by
    intro h0
    rw [h0] at hm2
    cases hm2
  have hempty : (expand (some q) (oneHotRow L 0) t st.1 st.2).2.isEmpty = false := by
    cases hl : (expand (some q) (oneHotRow L 0) t st.1 st.2).2 with
    | nil => exact absurd hl hne
    | cons x l => simp
  have hnan : ((expand (some q) (oneHotRow L 0) t st.1 st.2).2.any
      (fun e => (total e).isNone)) = false := by
    rw [List.any_eq_false]
    intro x hx
    rcases hZ2 x hx with h1 | h1
    · rw [h1, total_good]
      simp
    · rw [total_zero x h1]
      simp
  have hstep : stepT (n + 1) (some q) t (oneHotRow L 0) st =
      .ok ((expand (some q) (oneHotRow L 0) t st.1 st.2).1,
        topKBy total (n + 1) (expand (some q) (oneHotRow L 0) t st.1 st.2).2) := by
    simp only [stepT, hempty, hnan]
    rfl
  obtain ⟨r, hpick, hrsub⟩ := pick_good_val c2 1 0 (by norm_num)
    (expand (some q) (oneHotRow L 0) t st.1 st.2).2 hZ2 hm2
  have htop : topKBy total (n + 1) (expand (some q) (oneHotRow L 0) t st.1 st.2).2 =
      (c2, some 1, some 0) :: topKBy total n r := by
    simp only [topKBy, hpick]
  have hkexp : KeysOk (expand (some q) (oneHotRow L 0) t st.1 st.2).2 :=
    expand_keys (some q) (oneHotRow L 0) t st.2 (st.1, []) List.Pairwise.nil
  refine ⟨((expand (some q) (oneHotRow L 0) t st.1 st.2).1,
    topKBy total (n + 1) (expand (some q) (oneHotRow L 0) t st.1 st.2).2),
    hstep, htree, ?_, ?_, ?_, ?_⟩
  · rw [htop]
    exact List.mem_cons_self _ _
  · intro d hd
    rw [htop] at hd
    rcases List.mem_cons.mp hd with h1 | h1
    · exact Or.inl h1
    · exact hZ2 d (hrsub.subset (topKBy_mem total n r d h1))
  · exact topKBy_pairwise total _ (fun x y hxy h2 => hxy h2.symm) (n + 1) _ hkexp
  · intro e he
    exact hvalidE e (topKBy_mem total (n + 1) _ e he)

theorem runRows_oneHot (L n : Nat) (q : ℚ) (hq0 : 0 ≤ q) (hq1 : q < 1) :
    ∀ (s : List Nat) (st : SuffixTree × List BeamEntry) (t c : Nat),
      (∀ a ∈ s, 1 ≤ a ∧ a ≤ L) →
      TreeInv t st.1 →
      c < st.1.nodes.length →
      (c, some 1, some 0) ∈ st.2 →
      (∀ d ∈ st.2, ZG c 1 0 d) →
      KeysOk st.2 →
      (∀ e ∈ st.2, e.1 < st.1.nodes.length) →
      ∃ st2 c2, runRows (n + 1) (some q) st t (oneHotNet L s) = .ok st2 ∧
        (c2, some 1, some 0) ∈ st2.2 ∧
        (∀ d ∈ st2.2, ZG c2 1 0 d) ∧
        (st2.1.path c2).map (fun p => p.1) =
          (st.1.path c).map (fun p => p.1) ++ s := by
  intro s
  induction s with
  | nil =>
    intro st t c hs hinv hc hmem hZ hkeys hvalid
    exact ⟨st, c, rfl, hmem, hZ, by simp⟩
  | cons a s ih =>
    intro st t c hs hinv hc hmem hZ hkeys hvalid
    obtain ⟨ha1, haL⟩ := hs a (List.mem_cons_self _ _)
    obtain ⟨stM, c2, hstepA, hinvM, hextM, hmemM, hZM, hkeysM, hvalidM,
      hparM, hlabM, h1c2, hc2len⟩ :=
      stepT_oneHot_label n q hq0 hq1 L a t c ha1 haL st hinv hc hmem hZ hkeys
        hvalid
    obtain ⟨stB, hstepB, htreeB, hmemB, hZB, hkeysB, hvalidB⟩ :=
      stepT_oneHot_blank n q hq0 hq1 L (t + 1) c2 stM hinvM hmemM hZM hkeysM
        hvalidM
    have hinvB : TreeInv (t + 2) stB.1 := by
      rw [htreeB]
      exact hinvM.mono (by omega)
    have hcB : c2 < stB.1.nodes.length := by
      rw [htreeB]
      exact hc2len
    obtain ⟨st2, c3, hrun, hmem2, hZ2, hpath2⟩ :=
      ih stB (t + 2) c2 (fun x hx => hs x (List.mem_cons_of_mem _ hx))
        hinvB hcB hmemB hZB hkeysB hvalidB
    refine ⟨st2, c3, ?_, hmem2, hZ2, ?_⟩
    · show runRows (n + 1) (some q) st t
        (oneHotRow L a :: oneHotRow L 0 :: oneHotNet L s) = .ok st2
      simp only [runRows, hstepA, hstepB]
      exact hrun
    · rw [hpath2]
      have hpathB : (stB.1.path c2).map (fun p => p.1) =
          (st.1.path c).map (fun p => p.1) ++ [a] := by
        rw [htreeB, path_rec stM.1 hinvM.wf c2 h1c2 hc2len, hparM, hlabM,
          path_stable st.1 stM.1 hinv.wf hinvM.wf hextM c hc]
        simp
      rw [hpathB, List.append_assoc]
      rfl

/-- C2: for every matrix constructed as the one-hot encoding of a label
sequence `s` (labels in `[1, L]`, a blank row after every label row), every
beam size K ≥ 1 and every valid threshold `0 ≤ θ < 1/(L+1)`, `beam_search`
succeeds and returns exactly the labels `s`. -/
theorem one_hot_round_trip (L K : Nat) (s : List Nat) (q : ℚ)
    (hL : 1 ≤ L) (hK : 1 ≤ K) (hs : ∀ a ∈ s, 1 ≤ a ∧ a ≤ L)
    (hq0 : 0 ≤ q) (hq1 : q < 1 / ((L : ℚ) + 1)) :
    ∃ ts, beam_search (oneHotNet L s) K (some q) = .ok (s, ts) := by
  have hcast : (0 : ℚ) ≤ (L : ℚ) := Nat.cast_nonneg L
  have hq1' : q < 1 :=
    lt_of_lt_of_le hq1 (div_le_one_of_le₀ (by linarith) (by linarith))
  obtain ⟨n, rfl⟩ : ∃ n, K = n + 1 := ⟨K - 1, by omega⟩
  obtain ⟨st2, c2, hrun, hmem2, hZ2, hpath2⟩ :=
    runRows_oneHot L n q hq0 hq1' s initState 0 0 hs
      initTree_inv
      (by simp [initState, SuffixTree.init])
      (by simp [initState])
      (by
        intro d hd
        simp only [initState, List.mem_singleton] at hd
        exact Or.inl hd)
      (List.pairwise_singleton _ _)
      (by
        intro e he
        simp only [initState, List.mem_singleton] at he
        rw [he]
        simp [initState, SuffixTree.init])
  have hinitpath : ((initState.1.path 0).map (fun p => p.1) : List Nat) = [] := by
    simp [initState, SuffixTree.path, pathAux]
  rw [hinitpath, List.nil_append] at hpath2
  obtain ⟨r, hpick, hrsub⟩ := pick_good_val c2 1 0 (by norm_num) st2.2 hZ2 hmem2
  have hfilter : (st2.1.path c2).filter (fun p => decide (p.1 ≠ 0)) =
      st2.1.path c2 := by
    apply List.filter_eq_self.mpr
    intro p hp
    have hpin : p.1 ∈ s := by
      rw [← hpath2]
      exact List.mem_map_of_mem _ hp
    have hbound := hs p.1 hpin
    simp only [ne_eq, decide_not, Bool.not_eq_true', decide_eq_false_iff_not]
    omega
  have hfin : finalise st2 = (s, (st2.1.path c2).map (fun p => p.2)) := by
    unfold finalise
    simp only [pickBest]
    rw [hpick]
    simp only [hfilter]
    rw [hpath2]
  refine ⟨(st2.1.path c2).map (fun p => p.2), ?_⟩
  unfold beam_search
  rw [hrun]
  show Except.ok (finalise st2) = _
  rw [hfin]

theorem one_hot_round_trip_witness :
    (∀ a ∈ [1], 1 ≤ a ∧ a ≤ 1) ∧
    ∃ ts, beam_search (oneHotNet 1 [1]) 1 (some 0) = .ok ([1], ts) :=
  ⟨by decide, one_hot_round_trip 1 1 [1] 0 (by norm_num) (by norm_num)
    (by decide) (by norm_num) (by norm_num)⟩

end CtcDecode
